import Mathlib

/-!
Verification of the `gdownload` utility (Go): a Gmail attachment downloader
plus a build-time byte-literal code generator (`gobin.go`).

The development shallowly embeds the relevant program logic:

* the filename disambiguator `getUniqeFilename` together with its regular
  expression `^(.*?)(?:\(([0-9]+)\))?(\.[^\.]*)?$` (file `part_000`),
* the attachment walker `gmailDownloadAttachments` (file `part_000`),
* the OAuth callback handler, token cache path and token persistence
  (file `main.go`),
* the code generator's literal emission and a decoder implementing Go's
  own literal rules (file `gobin.go`).

Filenames and emitted program text are modelled as `List Char`; byte
strings as `List Nat` (each element intended `< 256`).  Directory states
are modelled as the list of names present in the output directory.
-/

namespace GDownload

/-! ## Decimal digits

`fmt.Sprintf("%v", n)` / `strconv.Atoi` on nonnegative integers.
`natDigitsF` is fueled so that the kernel can evaluate it; `natDigits n`
uses the always-sufficient fuel `n + 1`.  Go's `int` is 64-bit:
`strconv.Atoi` fails above `2^63-1` and `i+1` wraps at `math.MaxInt64`;
`digitsVal` is the plain numeric value of a digit string, and the range
check and the wrap are modelled separately by `atoiGo` / `goSuccChars`
below. -/

def digitChar (n : Nat) : Char := Char.ofNat (48 + n)

def natDigitsF : Nat → Nat → List Char
  | 0, _ => []
  | f + 1, n =>
    if n < 10 then [digitChar n]
    else natDigitsF f (n / 10) ++ [digitChar (n % 10)]

/-- Decimal representation of `n`, as printed by Go's `%v`. -/
def natDigits (n : Nat) : List Char := natDigitsF (n + 1) n

/-- Numeric value of a decimal digit string.  `strconv.Atoi` computes this
value on an all-digit input but errors when it overflows `int64`; the
range check is modelled by `atoiGo`. -/
def digitsVal (ds : List Char) : Nat :=
  ds.foldl (fun a c => 10 * a + (c.toNat - 48)) 0

/-- `[0-9]` of the regular expression. -/
def isDigitChar (c : Char) : Bool := 48 ≤ c.toNat && c.toNat ≤ 57

/-! ## The filename regular expression

`r = ^(.*?)(?:\(([0-9]+)\))?(\.[^\.]*)?$` (Go `regexp`, leftmost-first /
Perl submatch semantics).  `parseName s` computes the three submatches
`(stem, optional counter digits, extension)`:

* group 1 `(.*?)` is lazy, so the overall match uses the shortest stem for
  which the rest of the string matches the two optional groups anchored at
  the end;
* `(?:\(([0-9]+)\))?` matches a parenthesised maximal digit run (any
  shorter run is followed by a digit, not `)`, so the greedy run is the
  only candidate);
* `(\.[^\.]*)?` matches a final dot followed by a dot-free tail (the
  greedy `[^\.]*` must reach the anchor `$`, which happens exactly when
  the tail is dot-free).

`tryTail t` decides whether the part of the string after group 1 matches
`(?:\(([0-9]+)\))?(\.[^\.]*)?$`, returning the captured groups.  When the
paren group matches but neither the extension nor the anchor follows, no
other alternative can succeed (`t` then starts with `(`, which neither
starts an extension nor is empty), so the regex fails at this stem. -/

/-- Match `(\.[^\.]*)$`: a dot followed by a dot-free tail. -/
def extMatch : List Char → Option (List Char)
  | [] => none
  | c :: rest =>
    if c = '.' && !rest.contains '.' then some (c :: rest) else none

/-- Match `\(([0-9]+)\)` at the front, returning the digits and the rest.
The digit run is the maximal one (a shorter run is followed by a digit,
which is not `)`, so no backtracking into `[0-9]+` can succeed). -/
def parenMatch : List Char → Option (List Char × List Char)
  | [] => none
  | c :: u =>
    if c = '(' ∧ u.takeWhile isDigitChar ≠ [] ∧
        (u.dropWhile isDigitChar).head? = some ')' then
      some (u.takeWhile isDigitChar, (u.dropWhile isDigitChar).tail)
    else none

/-- Match `(?:\(([0-9]+)\))?(\.[^\.]*)?$` against all of `t`. -/
def tryTail (t : List Char) : Option (Option (List Char) × List Char) :=
  match parenMatch t with
  | some (ds, rest) =>
    match extMatch rest with
    | some e => some (some ds, e)
    | none => if rest.isEmpty then some (some ds, []) else none
  | none =>
    match extMatch t with
    | some e => some (none, e)
    | none => if t.isEmpty then some (none, []) else none

/-- The three submatches of `r.FindStringSubmatch`:`(matches[1], matches[2],
matches[3])`.  Group 1 is lazy: the first (shortest) stem whose tail
matches wins. -/
def parseName : List Char → List Char × Option (List Char) × List Char
  | [] => ([], none, [])
  | s@(c :: rest) =>
    match tryTail s with
    | some (d, e) => ([], d, e)
    | none => let p := parseName rest; (c :: p.1, p.2)

def stemOf (f : List Char) : List Char := (parseName f).1

def counterPart (f : List Char) : Option (List Char) := (parseName f).2.1

def extOf (f : List Char) : List Char := (parseName f).2.2

/-- `i` in `getUniqeFilename`: the counter captured by group 2, defaulting
to `0` when the group is absent. -/
def counterOf (f : List Char) : Nat :=
  match counterPart f with
  | some ds => digitsVal ds
  | none => 0

/-- `fmt.Sprintf("%s(%v)%s", matches[1], i+1, matches[3])` with unbounded
counter arithmetic: the idealised candidate.  `nextCandidateGo` below is
the faithful version with Go's `int` wrap and the `strconv.Atoi` error
path; the two agree whenever the counter is below `math.MaxInt64`. -/
def nextCandidate (f : List Char) : List Char :=
  stemOf f ++ ('(' :: (natDigits (counterOf f + 1) ++ ')' :: extOf f))

/-- Well-formed extension submatch: empty, or a dot followed by a dot-free tail. -/
def ExtWF (e : List Char) : Prop :=
  e = [] ∨ ∃ e', e = '.' :: e' ∧ '.' ∉ e'

/-- Well-formed counter submatch: a nonempty run of digits. -/
def DigitsWF (ds : List Char) : Prop :=
  ds ≠ [] ∧ ∀ c ∈ ds, isDigitChar c = true

/-- The string matched by the two optional groups given their submatches. -/
def parenOpt : Option (List Char) → List Char
  | none => []
  | some ds => '(' :: ds ++ [')']

/-! ## `getUniqeFilename`

The Go function checks `os.Stat(filepath.Join(path, file))` and recurses on
the next candidate while the file exists.  The directory is modelled as the
list of names present (`os.IsNotExist` ↔ the name is not in the list).
`getUniqeFilenameF` is the recursion with an explicit depth bound (fuel)
over the idealised unbounded candidate; `getUniqeFilenameF_some` below
proves that `|dir| + 1` recursion steps always suffice for it, and
`getUniqeFilename` instantiates the fuel at that bound.
`getUniqeFilenameGoF` is the faithful recursion with Go's bounded counter
arithmetic: it also models the `log.Fatalf` abort taken when
`strconv.Atoi` rejects a captured counter above `math.MaxInt64`, and the
wrap of `i+1` at `math.MaxInt64`.  `getUniqeFilenameGoF_eq` below shows
the two recursions coincide while the counters stay below the boundary. -/

def getUniqeFilenameF (dir : List (List Char)) : Nat → List Char → Option (List Char)
  | 0, _ => none
  | fuel + 1, file =>
    if file ∈ dir then getUniqeFilenameF dir fuel (nextCandidate file)
    else some file

def getUniqeFilename (dir : List (List Char)) (file : List Char) : List Char :=
  (getUniqeFilenameF dir (dir.length + 1) file).getD file

/-- `math.MaxInt64`: the largest value a Go `int` holds on a 64-bit
platform, and the largest value `strconv.Atoi` accepts. -/
def maxInt64 : Nat := 9223372036854775807

/-- `strconv.Atoi` on the all-digit string captured by group 2: the result
is its numeric value, and the call errors (`none`) exactly when that value
overflows `int64`. -/
def atoiGo (ds : List Char) : Option Nat :=
  if digitsVal ds ≤ maxInt64 then some (digitsVal ds) else none

/-- `%v` of the Go `int` `i+1`: at `math.MaxInt64` the increment wraps to
`math.MinInt64`, which prints with a leading minus sign. -/
def goSuccChars (i : Nat) : List Char :=
  if i = maxInt64 then '-' :: natDigits (maxInt64 + 1) else natDigits (i + 1)

/-- `fmt.Sprintf("%s(%v)%s", matches[1], i+1, matches[3])` with Go's `int`
arithmetic; `none` models the `log.Fatalf` abort taken when `strconv.Atoi`
rejects the captured counter. -/
def nextCandidateGo (f : List Char) : Option (List Char) :=
  match counterPart f with
  | none => some (stemOf f ++ ('(' :: (natDigits 1 ++ ')' :: extOf f)))
  | some ds =>
    match atoiGo ds with
    | none => none
    | some i => some (stemOf f ++ ('(' :: (goSuccChars i ++ ')' :: extOf f)))

/-- `getUniqeFilename` with Go's bounded counter arithmetic and the fatal
`strconv.Atoi` error path: `none` is exhausted fuel, `some none` the
`log.Fatalf` abort, `some (some n)` the name returned. -/
def getUniqeFilenameGoF (dir : List (List Char)) :
    Nat → List Char → Option (Option (List Char))
  | 0, _ => none
  | fuel + 1, file =>
    if file ∈ dir then
      match nextCandidateGo file with
      | none => some none
      | some c => getUniqeFilenameGoF dir fuel c
    else some (some file)

/-- The Go function at the fuel shown sufficient away from the `int64`
boundary; `none` means the process died or the fuel ran out. -/
def getUniqeFilenameGo (dir : List (List Char)) (file : List Char) :
    Option (List Char) :=
  (getUniqeFilenameGoF dir (dir.length + 1) file).join

/-- Names in `dir` that share the stem and extension of `f` and carry a
counter at least that of `f`: the candidates that can still collide. -/
def chainWeight (dir : List (List Char)) (f : List Char) : Nat :=
  (dir.filter fun g =>
    decide (stemOf g = stemOf f ∧ extOf g = extOf f ∧ counterOf f ≤ counterOf g)).length

/-! ## Base64 decoding

`b64.URLEncoding.DecodeString`: standard (padded) base64 with the URL-safe
alphabet `A-Z a-z 0-9 - _`.  Go's decoder skips `\r` and `\n`, requires the
remaining length to be a multiple of four, allows `=` padding only in the
final quad, and (in non-strict mode) ignores unused trailing bits. -/

def b64Val (c : Char) : Option Nat :=
  if 'A' ≤ c ∧ c ≤ 'Z' then some (c.toNat - 65)
  else if 'a' ≤ c ∧ c ≤ 'z' then some (c.toNat - 97 + 26)
  else if '0' ≤ c ∧ c ≤ '9' then some (c.toNat - 48 + 52)
  else if c = '-' then some 62
  else if c = '_' then some 63
  else none

def b64Quads : List Char → Option (List Nat)
  | [] => some []
  | c1 :: c2 :: c3 :: c4 :: rest =>
    match b64Val c1, b64Val c2 with
    | some v1, some v2 =>
      if c3 = '=' then
        if c4 = '=' ∧ rest = [] then some [v1 * 4 + v2 / 16] else none
      else
        match b64Val c3 with
        | some v3 =>
          if c4 = '=' then
            if rest = [] then some [v1 * 4 + v2 / 16, v2 % 16 * 16 + v3 / 4]
            else none
          else
            match b64Val c4 with
            | some v4 =>
              match b64Quads rest with
              | some tail =>
                some ((v1 * 4 + v2 / 16) :: (v2 % 16 * 16 + v3 / 4) ::
                  (v3 % 4 * 64 + v4) :: tail)
              | none => none
            | none => none
        | none => none
    | _, _ => none
  | _ => none

def b64UrlDecode (s : List Char) : Option (List Nat) :=
  b64Quads (s.filter fun c => !(c == '\n' || c == '\r'))

/-! ## The attachment walker

`gmailDownloadAttachments` pages through `Users.Messages.List` results and,
for each message, downloads every part that carries a filename.  The model
flattens pagination into the list of all returned messages (the page-token
loop only concatenates the pages) and treats the network as given data:

* `fetch mid attId` is the `Data` field returned by
  `Users.Messages.Attachments.Get("me", mid, attId)`;
* a base64 decode failure makes the whole run fail (`log.Fatalf`), modelled
  by returning `none`;
* `ioutil.WriteFile` adds the chosen name to the directory state;
* `os.Chtimes(fullName, time.Now(), time.Unix(msg.InternalDate/1000, 0))`
  sets the modification time to `InternalDate / 1000` seconds (Go integer
  division truncates toward zero, `Int.tdiv`). -/

structure MessagePart where
  filename : List Char
  attachmentId : Nat
deriving DecidableEq

structure GMessage where
  id : Nat
  internalDate : Int
  parts : List MessagePart
deriving DecidableEq

/-- One `ioutil.WriteFile`/`os.Chtimes` pair: the written name, the decoded
bytes, the owning message's internal date, the applied modification time in
seconds, and the directory contents at the moment of writing. -/
structure WriteEvent where
  name : List Char
  data : List Nat
  internalDate : Int
  mtimeSec : Int
  dirBefore : List (List Char)
deriving DecidableEq

/-- The inner `for _, part := range msg.Payload.Parts` loop. -/
def processParts (fetch : Nat → Nat → List Char) (mid : Nat) (idate : Int) :
    List (List Char) → List MessagePart → Option (List WriteEvent × List (List Char))
  | dir, [] => some ([], dir)
  | dir, p :: ps =>
    if p.filename = [] then processParts fetch mid idate dir ps
    else
      match b64UrlDecode (fetch mid p.attachmentId) with
      | none => none
      | some data =>
        let name := getUniqeFilename dir p.filename
        match processParts fetch mid idate (name :: dir) ps with
        | none => none
        | some (evs, dir') =>
          some (⟨name, data, idate, Int.tdiv idate 1000, dir⟩ :: evs, dir')

/-- The walker over all messages returned by the (flattened) search pages. -/
def gmailDownloadAttachments (fetch : Nat → Nat → List Char) :
    List (List Char) → List GMessage → Option (List WriteEvent × List (List Char))
  | dir, [] => some ([], dir)
  | dir, m :: ms =>
    match processParts fetch m.id m.internalDate dir m.parts with
    | none => none
    | some (evs, dir') =>
      match gmailDownloadAttachments fetch dir' ms with
      | none => none
      | some (evs', dir'') => some (evs ++ evs', dir'')

/-! ## OAuth callback handler (`tokenFromWeb`, main.go)

The `http.HandlerFunc` closure: `/favicon.ico` is rejected with 404; a
mismatched `state` form value is rejected with 500; a request carrying a
nonempty `code` gets a success page (HTTP 200) and the code is sent on the
channel; otherwise 500.  `delivered` models `ch <- code`; the waiting
`code := <-ch` receives the first delivered code. -/

structure CallbackRequest where
  path : String
  state : String
  code : String
deriving DecidableEq

structure CallbackResponse where
  status : Nat
  delivered : Option String
deriving DecidableEq

def authCallbackHandler (randState : String) (req : CallbackRequest) :
    CallbackResponse :=
  if req.path = "/favicon.ico" then ⟨404, none⟩
  else if req.state ≠ randState then ⟨500, none⟩
  else if req.code ≠ "" then ⟨200, some req.code⟩
  else ⟨500, none⟩

def deliveredCode (randState : String) (reqs : List CallbackRequest) :
    Option String :=
  reqs.findSome? fun r => (authCallbackHandler randState r).delivered

/-! ## Token cache path (`tokenCacheFile`, main.go)

```
hash := fnv.New32a()
hash.Write([]byte(config.ClientID))
hash.Write([]byte(config.ClientSecret))
hash.Write([]byte(strings.Join(config.Scopes, " ")))
fn := fmt.Sprintf("%v-tok%v", progName, hash.Sum32())
return filepath.Join(osUserCacheDir(), url.QueryEscape(fn))
```

Strings are modelled as byte lists (`List Nat`).  `osUserCacheDir` depends
on `$HOME`/GOOS and is a parameter.  `filepath.Join` concatenates with `/`
(its `Clean` step is the identity here: the escaped name contains no
separators).  `url.QueryEscape` keeps alphanumerics and `-_.~`, turns a
space into `+`, and percent-encodes everything else with uppercase hex. -/

def fnv32aStep (h b : Nat) : Nat := (h ^^^ b) * 16777619 % 4294967296

def fnvUpdate (h : Nat) (bytes : List Nat) : Nat := bytes.foldl fnv32aStep h

def fnv32aInit : Nat := 2166136261

def strToBytes (s : String) : List Nat := s.toList.map Char.toNat

def natDecBytes (n : Nat) : List Nat := (natDigits n).map Char.toNat

def isUnreservedQuery (b : Nat) : Bool :=
  (65 ≤ b && b ≤ 90) || (97 ≤ b && b ≤ 122) || (48 ≤ b && b ≤ 57) ||
    b == 45 || b == 95 || b == 46 || b == 126

def hexUpperDigit (n : Nat) : Nat := if n < 10 then 48 + n else 55 + n

def queryEscape (s : List Nat) : List Nat :=
  s.foldr (fun b acc =>
    (if isUnreservedQuery b then [b]
     else if b == 32 then [43]
     else [37, hexUpperDigit (b / 16), hexUpperDigit (b % 16)]) ++ acc) []

def tokenCacheHash (clientID clientSecret : List Nat)
    (scopes : List (List Nat)) : Nat :=
  fnvUpdate (fnvUpdate (fnvUpdate fnv32aInit clientID) clientSecret)
    (List.intercalate [32] scopes)

def tokenCacheFile (cacheDir progName clientID clientSecret : List Nat)
    (scopes : List (List Nat)) : List Nat :=
  cacheDir ++ 47 :: queryEscape (progName ++ strToBytes "-tok" ++
    natDecBytes (tokenCacheHash clientID clientSecret scopes))

/-- Lexicographic byte-list comparison, for sorting scopes. -/
def lexLeBytes : List Nat → List Nat → Bool
  | [], _ => true
  | _ :: _, [] => false
  | a :: as, b :: bs => if a < b then true else if b < a then false else lexLeBytes as bs

def insertLex (x : List Nat) : List (List Nat) → List (List Nat)
  | [] => [x]
  | y :: ys => if lexLeBytes x y then x :: y :: ys else y :: insertLex x ys

def sortLex : List (List Nat) → List (List Nat)
  | [] => []
  | x :: xs => insertLex x (sortLex xs)

/-- Modelled from the spec: "a 32-bit hash of (client id, secret, sorted
scope list)" -- like `tokenCacheHash` but with the scope list sorted before
joining.  The code (`tokenCacheFile` in main.go) does not sort. -/
def tokenCacheHashSortedSpec (clientID clientSecret : List Nat)
    (scopes : List (List Nat)) : Nat :=
  fnvUpdate (fnvUpdate (fnvUpdate fnv32aInit clientID) clientSecret)
    (List.intercalate [32] (sortLex scopes))

/-- Modelled from the spec: the cache path built from the sorted-scope hash. -/
def tokenCacheFileSortedSpec (cacheDir progName clientID clientSecret : List Nat)
    (scopes : List (List Nat)) : List Nat :=
  cacheDir ++ 47 :: queryEscape (progName ++ strToBytes "-tok" ++
    natDecBytes (tokenCacheHashSortedSpec clientID clientSecret scopes))

/-! ## Token persistence (`saveToken` / `newOAuthClient`, main.go)

`saveToken` logs a warning and returns when `os.Create` fails -- it never
calls `log.Fatalf`.  `newOAuthClient` falls back to the web flow when the
cache read fails and, when `--cachetoken` is set, saves the fresh token;
the obtained token is used either way. -/

inductive LogEvent where
  | warnCacheFail
  | savedTokenInfo
  | usingCachedInfo
deriving DecidableEq

structure SaveResult where
  events : List LogEvent
  fatal : Bool
  wrote : Bool
deriving DecidableEq

def saveToken (createOk : Bool) : SaveResult :=
  if createOk then ⟨[.savedTokenInfo], false, true⟩
  else ⟨[.warnCacheFail], false, false⟩

structure OToken where
  accessToken : String
  refreshToken : String
  expiry : Int
deriving DecidableEq

def tokenFromFile (cacheTokenFlag : Bool) (cacheRead : Option OToken) :
    Option OToken :=
  if cacheTokenFlag then cacheRead else none

/-- Returns the token handed to `config.Client`, the log events, and
whether the process was terminated. -/
def newOAuthClient (cacheTokenFlag : Bool) (cacheRead : Option OToken)
    (webToken : OToken) (createOk : Bool) : OToken × List LogEvent × Bool :=
  match tokenFromFile cacheTokenFlag cacheRead with
  | some t => (t, [.usingCachedInfo], false)
  | none =>
    if cacheTokenFlag then
      let r := saveToken createOk
      (webToken, r.events, r.fatal)
    else (webToken, [], false)

/-! ## The code generator (gobin.go)

`main` reads the input file into `buffer` and prints a Go source fragment:
`<indent><var> = []byte<open>`, then one line per `step` bytes produced by
the `getLine` closure for the selected format, then `<indent><close>`.
Each data line is written with `fmt.Fprintln(w, indent, getLine(chunk))`,
which prints the indent, a space, the line and a newline.

`emitLiteral` is the emitted `[]byte...` literal itself (the text from
`[]byte` through the closing bracket); the preceding `package`/`var` lines
and the trailing newline are packaging around it.  `bufCap` models
`cap(buffer)`: the `shexx`/`shex` closures append `","` when
`len(chunk) == cap(chunk)`, i.e. when the chunk ends at `cap(buffer)`,
and `"+"` otherwise.  (`ioutil.ReadFile` generally returns a slice with
`cap > len`.)  Byte values are intended `< 256`.  Go loops forever when
`step <= 0`; the fueled chunking below instead stops, and the round-trip
theorems assume `1 ≤ step`. -/

inductive Format where
  | hexx | hex | dec | shexx | shex
deriving DecidableEq

/-- Lowercase hexadecimal digit, as printed by Go's `%x`. -/
def hexDigit (n : Nat) : Char :=
  if n < 10 then Char.ofNat (48 + n) else Char.ofNat (87 + n)

/-- Two-digit lowercase hex of a byte (`%x` of a one-byte slice). -/
def hex2 (b : Nat) : List Char := [hexDigit (b / 16), hexDigit (b % 16)]

/-- Minimal-width lowercase hex of a byte value (`%#x` of a `byte` prints
`0x` plus this; `0` prints as `0x0`). -/
def hexMin (b : Nat) : List Char :=
  if b < 16 then [hexDigit b] else hex2 b

def hex4 (r : Nat) : List Char :=
  [hexDigit (r / 4096 % 16), hexDigit (r / 256 % 16),
   hexDigit (r / 16 % 16), hexDigit (r % 16)]

def hex8 (r : Nat) : List Char := hex4 (r / 65536) ++ hex4 (r % 65536)

/-- `unicode/utf8.DecodeRune` on the front of a byte list: `some (r, n)`
when the first `n` bytes are a valid encoding of rune `r`, `none` when the
leading byte must be treated as an error (RuneError of size 1): that is,
for 0x80-0xC1 and 0xF5-0xFF leaders, truncated sequences, bad continuation
bytes, and overlong/surrogate/out-of-range encodings. -/
def utf8Decode1 (l : List Nat) : Option (Nat × Nat) :=
  match l with
  | [] => none
  | b0 :: rest =>
    let b1 := rest.getD 0 256
    let b2 := rest.getD 1 256
    let b3 := rest.getD 2 256
    if b0 < 128 then some (b0, 1)
    else if 194 ≤ b0 ∧ b0 ≤ 223 ∧ 128 ≤ b1 ∧ b1 ≤ 191 then
      some ((b0 - 192) * 64 + (b1 - 128), 2)
    else if (224 ≤ b0 ∧ b0 ≤ 239) ∧
        (if b0 = 224 then 160 ≤ b1 ∧ b1 ≤ 191
         else if b0 = 237 then 128 ≤ b1 ∧ b1 ≤ 159
         else 128 ≤ b1 ∧ b1 ≤ 191) ∧ 128 ≤ b2 ∧ b2 ≤ 191 then
      some ((b0 - 224) * 4096 + (b1 - 128) * 64 + (b2 - 128), 3)
    else if (240 ≤ b0 ∧ b0 ≤ 244) ∧
        (if b0 = 240 then 144 ≤ b1 ∧ b1 ≤ 191
         else if b0 = 244 then 128 ≤ b1 ∧ b1 ≤ 143
         else 128 ≤ b1 ∧ b1 ≤ 191) ∧ 128 ≤ b2 ∧ b2 ≤ 191 ∧
        128 ≤ b3 ∧ b3 ≤ 191 then
      some ((b0 - 240) * 262144 + (b1 - 128) * 4096 + (b2 - 128) * 64 +
        (b3 - 128), 4)
    else none

/-- `unicode/utf8.EncodeRune` (surrogates and out-of-range runes encode
the replacement character U+FFFD). -/
def utf8Encode (r : Nat) : List Nat :=
  if r < 128 then [r]
  else if r < 2048 then [192 + r / 64, 128 + r % 64]
  else if 55296 ≤ r ∧ r < 57344 then [239, 191, 189]
  else if r < 65536 then [224 + r / 4096, 128 + r / 64 % 64, 128 + r % 64]
  else if r < 1114112 then
    [240 + r / 262144, 128 + r / 4096 % 64, 128 + r / 64 % 64, 128 + r % 64]
  else [239, 191, 189]

/-- One escaped rune of `strconv.QuoteToASCII` (quote character `"`). -/
def escRune (r : Nat) : List Char :=
  if r = 34 then ['\\', '"']
  else if r = 92 then ['\\', '\\']
  else if 32 ≤ r ∧ r ≤ 126 then [Char.ofNat r]
  else if r = 7 then ['\\', 'a']
  else if r = 8 then ['\\', 'b']
  else if r = 12 then ['\\', 'f']
  else if r = 10 then ['\\', 'n']
  else if r = 13 then ['\\', 'r']
  else if r = 9 then ['\\', 't']
  else if r = 11 then ['\\', 'v']
  else if r < 32 ∨ r = 127 then '\\' :: 'x' :: hex2 r
  else if r < 65536 then '\\' :: 'u' :: hex4 r
  else '\\' :: 'U' :: hex8 r

/-- Body of `strconv.QuoteToASCII` over a byte string, with fuel (one byte
is consumed per invalid leader, up to four per valid rune). -/
def quoteBodyF : Nat → List Nat → List Char
  | 0, _ => []
  | _ + 1, [] => []
  | f + 1, b0 :: rest =>
    match utf8Decode1 (b0 :: rest) with
    | none => '\\' :: 'x' :: hex2 b0 ++ quoteBodyF f rest
    | some (r, n) => escRune r ++ quoteBodyF f ((b0 :: rest).drop n)

/-- `fmt.Sprintf("%+q", buffer)` = `strconv.QuoteToASCII(string(buffer))`. -/
def quotePlusQ (bs : List Nat) : List Char :=
  '"' :: (quoteBodyF bs.length bs ++ ['"'])

/-- `fmt.Sprintf("%#x", buffer[i:i+1])`. -/
def itemHexx (b : Nat) : List Char := '0' :: 'x' :: hex2 b

/-- `fmt.Sprintf("%#x", b)` for a byte value. -/
def itemHex (b : Nat) : List Char := '0' :: 'x' :: hexMin b

/-- `fmt.Sprintf("%d", b)`. -/
def itemDec (b : Nat) : List Char := natDigits b

/-- `fmt.Sprintf("\\x%x", buffer[i:i+1])`. -/
def shexxItem (b : Nat) : List Char := '\\' :: 'x' :: hex2 b

/-- `getLine(chunk)` for each format; `atCap` is `len(chunk) == cap(chunk)`. -/
def lineFor (fm : Format) (chunk : List Nat) (atCap : Bool) : List Char :=
  match fm with
  | .hexx => '\t' :: (List.intercalate (", ".toList) (chunk.map itemHexx) ++ [','])
  | .hex => '\t' :: (List.intercalate (", ".toList) (chunk.map itemHex) ++ [','])
  | .dec => '\t' :: (List.intercalate (", ".toList) (chunk.map itemDec) ++ [','])
  | .shexx => '\t' :: '"' ::
      ((chunk.map shexxItem).flatten ++ '"' :: [if atCap then ',' else '+'])
  | .shex => '\t' :: (quotePlusQ chunk ++ [if atCap then ',' else '+'])

/-- The data lines of the `for i := 0; i < len(buffer); i += step` loop;
`pos` is `from` and the fuel is at least the remaining byte count. -/
def dataLinesF (fm : Format) (step bufCap : Nat) :
    Nat → Nat → List Nat → List (List Char)
  | 0, _, _ => []
  | _ + 1, _, [] => []
  | f + 1, pos, l =>
    lineFor fm (l.take step) (pos + (l.take step).length == bufCap) ::
      dataLinesF fm step bufCap f (pos + (l.take step).length) (l.drop step)

/-- `getParents(format)[0]` and `[1]`. -/
def openCh : Format → Char
  | .shexx | .shex => '('
  | _ => '{'

def closeCh : Format → Char
  | .shexx | .shex => ')'
  | _ => '}'

/-- The emitted `[]byte` literal, from `[]byte%c` in the declaration line
through the closing bracket printed by `fmt.Fprintf(w, "%s%c\n", ...)`. -/
def emitLiteral (fm : Format) (step : Nat) (indent : List Char)
    (buf : List Nat) (bufCap : Nat) : List Char :=
  "[]byte".toList ++ (openCh fm :: '\n' ::
    (((dataLinesF fm step bufCap buf.length 0 buf).map
      (fun ln => indent ++ (' ' :: (ln ++ ['\n'])))).flatten
    ++ (indent ++ [closeCh fm])))

/-! ### Decoding by Go's literal rules

`decodeLiteral` parses the emitted text as Go would: after `[]byte`, a
brace form is a composite literal of integer literals (decimal, `0x` hex,
or `0`-prefixed octal) separated by commas with an optional trailing
comma, and a paren form is a conversion applied to a `+`-concatenation of
interpreted string literals, with Go's escape sequences
(`\xHH`, `\uHHHH`, `\UHHHHHHHH`, `\OOO` octal, and the named escapes),
an optional trailing comma, and no raw newline inside a string. -/

def isWS (c : Char) : Bool := c == ' ' || c == '\t' || c == '\n' || c == '\r'

def isHexDigitChar (c : Char) : Bool :=
  isDigitChar c || (97 ≤ c.toNat && c.toNat ≤ 102) || (65 ≤ c.toNat && c.toNat ≤ 70)

def isOctDigitChar (c : Char) : Bool := 48 ≤ c.toNat && c.toNat ≤ 55

def digitVal (c : Char) : Nat := c.toNat - 48

def hexVal (c : Char) : Nat :=
  if c.toNat ≤ 57 then c.toNat - 48
  else if c.toNat ≤ 70 then c.toNat - 55
  else c.toNat - 87

/-- States of the integer-list parser (`{...}` forms). -/
inductive IMode where
  | start | zero | hexStart
  | hexNum (v : Nat) | decNum (v : Nat) | octNum (v : Nat) | afterNum (v : Nat)
  | done
deriving DecidableEq

def iStep : IMode × List Nat → Char → Option (IMode × List Nat)
  | (.start, acc), c =>
    if isWS c then some (.start, acc)
    else if c = '}' then some (.done, acc)
    else if c = '0' then some (.zero, acc)
    else if isDigitChar c then some (.decNum (digitVal c), acc)
    else none
  | (.zero, acc), c =>
    if c = 'x' ∨ c = 'X' then some (.hexStart, acc)
    else if isOctDigitChar c then some (.octNum (digitVal c), acc)
    else if isWS c then some (.afterNum 0, acc)
    else if c = ',' then some (.start, 0 :: acc)
    else if c = '}' then some (.done, 0 :: acc)
    else none
  | (.hexStart, acc), c =>
    if isHexDigitChar c then some (.hexNum (hexVal c), acc) else none
  | (.hexNum v, acc), c =>
    if isHexDigitChar c then some (.hexNum (16 * v + hexVal c), acc)
    else if isWS c then some (.afterNum v, acc)
    else if c = ',' then some (.start, v :: acc)
    else if c = '}' then some (.done, v :: acc)
    else none
  | (.decNum v, acc), c =>
    if isDigitChar c then some (.decNum (10 * v + digitVal c), acc)
    else if isWS c then some (.afterNum v, acc)
    else if c = ',' then some (.start, v :: acc)
    else if c = '}' then some (.done, v :: acc)
    else none
  | (.octNum v, acc), c =>
    if isOctDigitChar c then some (.octNum (8 * v + digitVal c), acc)
    else if isWS c then some (.afterNum v, acc)
    else if c = ',' then some (.start, v :: acc)
    else if c = '}' then some (.done, v :: acc)
    else none
  | (.afterNum v, acc), c =>
    if isWS c then some (.afterNum v, acc)
    else if c = ',' then some (.start, v :: acc)
    else if c = '}' then some (.done, v :: acc)
    else none
  | (.done, _), _ => none

/-- States of the string-concatenation parser (`(...)` forms). -/
inductive SMode where
  | pre | between | preStr | preClose | inStr | esc
  | escX (k v : Nat) | escU (k v : Nat) | escUU (k v : Nat) | escO (k v : Nat)
  | sdone
deriving DecidableEq

def sStep : SMode × List Nat → Char → Option (SMode × List Nat)
  | (.pre, acc), c =>
    if isWS c then some (.pre, acc)
    else if c = '"' then some (.inStr, acc)
    else none
  | (.between, acc), c =>
    if isWS c then some (.between, acc)
    else if c = '+' then some (.preStr, acc)
    else if c = ',' then some (.preClose, acc)
    else if c = ')' then some (.sdone, acc)
    else none
  | (.preStr, acc), c =>
    if isWS c then some (.preStr, acc)
    else if c = '"' then some (.inStr, acc)
    else none
  | (.preClose, acc), c =>
    if isWS c then some (.preClose, acc)
    else if c = ')' then some (.sdone, acc)
    else none
  | (.inStr, acc), c =>
    if c = '"' then some (.between, acc)
    else if c = '\\' then some (.esc, acc)
    else if c = '\n' then none
    else some (.inStr, (utf8Encode c.toNat).reverse ++ acc)
  | (.esc, acc), c =>
    if c = 'x' then some (.escX 2 0, acc)
    else if c = 'u' then some (.escU 4 0, acc)
    else if c = 'U' then some (.escUU 8 0, acc)
    else if isOctDigitChar c then some (.escO 2 (digitVal c), acc)
    else if c = 'a' then some (.inStr, 7 :: acc)
    else if c = 'b' then some (.inStr, 8 :: acc)
    else if c = 'f' then some (.inStr, 12 :: acc)
    else if c = 'n' then some (.inStr, 10 :: acc)
    else if c = 'r' then some (.inStr, 13 :: acc)
    else if c = 't' then some (.inStr, 9 :: acc)
    else if c = 'v' then some (.inStr, 11 :: acc)
    else if c = '\\' then some (.inStr, 92 :: acc)
    else if c = '"' then some (.inStr, 34 :: acc)
    else none
  | (.escX k v, acc), c =>
    if isHexDigitChar c then
      if k = 1 then some (.inStr, (16 * v + hexVal c) :: acc)
      else some (.escX (k - 1) (16 * v + hexVal c), acc)
    else none
  | (.escU k v, acc), c =>
    if isHexDigitChar c then
      if k = 1 then some (.inStr, (utf8Encode (16 * v + hexVal c)).reverse ++ acc)
      else some (.escU (k - 1) (16 * v + hexVal c), acc)
    else none
  | (.escUU k v, acc), c =>
    if isHexDigitChar c then
      if k = 1 then
        if 16 * v + hexVal c ≤ 1114111 then
          some (.inStr, (utf8Encode (16 * v + hexVal c)).reverse ++ acc)
        else none
      else some (.escUU (k - 1) (16 * v + hexVal c), acc)
    else none
  | (.escO k v, acc), c =>
    if isOctDigitChar c then
      if k = 1 then
        if 8 * v + digitVal c ≤ 255 then some (.inStr, (8 * v + digitVal c) :: acc)
        else none
      else some (.escO (k - 1) (8 * v + digitVal c), acc)
    else none
  | (.sdone, _), _ => none

/-- Run a character machine over the input, failing on a rejected char. -/
def runM {σ : Type} (step : σ → Char → Option σ) : σ → List Char → Option σ
  | st, [] => some st
  | st, c :: cs =>
    match step st c with
    | some st' => runM step st' cs
    | none => none

/-- Decode a `[]byte{...}` or `[]byte(... )` literal by Go's rules. -/
def decodeLiteral (s : List Char) : Option (List Nat) :=
  match s with
  | '[' :: ']' :: 'b' :: 'y' :: 't' :: 'e' :: br :: rest =>
    if br = '{' then
      match runM iStep (.start, []) rest with
      | some (.done, acc) => some acc.reverse
      | _ => none
    else if br = '(' then
      match runM sStep (.pre, []) rest with
      | some (.sdone, acc) => some acc.reverse
      | _ => none
    else none
  | _ => none

/-- The conclusion of `utf8Decode1_spec`, abbreviated. -/
structure Utf8SpecClaim (n r : Nat) (l : List Nat) : Prop where
  one_le : 1 ≤ n
  le_len : n ≤ l.length
  enc : utf8Encode r = l.take n
  not_surrogate : ¬(55296 ≤ r ∧ r < 57344)
  le_max : r ≤ 1114111
  ascii_iff : r < 128 ↔ n = 1

theorem natDigitsF_stable (f n : Nat) (h : n < f) :
    natDigitsF f n = natDigits n := by
  induction f using Nat.strong_induction_on generalizing n with
  | _ f ih =>
    match f with
    | 0 => omega
    | f' + 1 =>
      by_cases hn : n < 10
      · simp [natDigits, natDigitsF, hn]
      · have hdn : n / 10 < n := Nat.div_lt_self (by omega) (by omega)
        have h1 : natDigitsF (f' + 1) n = natDigitsF f' (n / 10) ++ [digitChar (n % 10)] := by
          simp [natDigitsF, hn]
        have h2 : natDigits n = natDigitsF n (n / 10) ++ [digitChar (n % 10)] := by
          simp [natDigits, natDigitsF, hn]
        rw [h1, h2, ih f' (by omega) _ (by omega), ih n (by omega) _ hdn]

theorem digitsVal_append (a b : List Char) :
    digitsVal (a ++ b) = b.foldl (fun a c => 10 * a + (c.toNat - 48)) (digitsVal a) := by
  simp [digitsVal, List.foldl_append]

theorem digitChar_toNat (n : Nat) (h : n < 10) : (digitChar n).toNat = 48 + n := by
  interval_cases n <;> decide

theorem isDigitChar_digitChar (n : Nat) (h : n < 10) : isDigitChar (digitChar n) = true := by
  interval_cases n <;> decide

/-- `natDigits` has a nonzero leading digit for `n ≥ 1` -- more precisely, the
value round-trips and every character is a digit. -/
theorem natDigits_spec (n : Nat) :
    digitsVal (natDigits n) = n ∧ natDigits n ≠ [] ∧
      ∀ c ∈ natDigits n, isDigitChar c = true := by
  induction n using Nat.strong_induction_on with
  | _ n ih =>
    by_cases hn : n < 10
    · have h1 : natDigits n = [digitChar n] := by simp [natDigits, natDigitsF, hn]
      rw [h1]
      refine ⟨?_, by simp, ?_⟩
      · simp [digitsVal, digitChar_toNat n hn]
      · intro c hc; simp at hc; subst hc; exact isDigitChar_digitChar n hn
    · have hd : n / 10 < n := Nat.div_lt_self (by omega) (by omega)
      have ihd := ih (n / 10) hd
      have step : natDigits n = natDigits (n / 10) ++ [digitChar (n % 10)] := by
        have h2 : natDigits n = natDigitsF n (n / 10) ++ [digitChar (n % 10)] := by
          simp [natDigits, natDigitsF, hn]
        rw [h2, natDigitsF_stable n (n / 10) hd]
      rw [step]
      refine ⟨?_, by simp, ?_⟩
      · rw [digitsVal_append, ihd.1]
        simp [digitChar_toNat (n % 10) (Nat.mod_lt _ (by omega))]
        omega
      · intro c hc
        rcases List.mem_append.1 hc with h | h
        · exact ihd.2.2 c h
        · simp at h; subst h
          exact isDigitChar_digitChar _ (Nat.mod_lt _ (by omega))

theorem digitsVal_natDigits (n : Nat) : digitsVal (natDigits n) = n :=
  (natDigits_spec n).1

theorem extMatch_eq_some {t e : List Char} (h : extMatch t = some e) :
    t = e ∧ ∃ e', e = '.' :: e' ∧ '.' ∉ e' := by
  match t with
  | [] => simp [extMatch] at h
  | c :: rest =>
    simp only [extMatch] at h
    split at h
    · rename_i hc
      simp only [Bool.and_eq_true, decide_eq_true_eq, Bool.not_eq_true'] at hc
      cases h
      refine ⟨rfl, rest, by rw [hc.1], ?_⟩
      have := hc.2
      simpa using this
    · cases h

theorem extMatch_dot {e' : List Char} (h : '.' ∉ e') :
    extMatch ('.' :: e') = some ('.' :: e') := by
  simp [extMatch, h]

theorem extMatch_not_dot {t : List Char} (h : t.head? ≠ some '.') :
    extMatch t = none := by
  match t with
  | [] => rfl
  | c :: rest =>
    simp only [List.head?_cons, ne_eq, Option.some.injEq] at h
    simp [extMatch, h]

theorem takeWhile_all_append {p : Char → Bool} {xs : List Char}
    (hx : ∀ x ∈ xs, p x = true) {y : Char} (hy : p y = false) (r : List Char) :
    (xs ++ y :: r).takeWhile p = xs ∧ (xs ++ y :: r).dropWhile p = y :: r := by
  induction xs with
  | nil => simp [List.takeWhile_cons, List.dropWhile_cons, hy]
  | cons a xs ih =>
    have ha : p a = true := hx a (by simp)
    have ih' := ih (fun x hx' => hx x (by simp [hx']))
    simp [List.takeWhile_cons, List.dropWhile_cons, ha, ih'.1, ih'.2]

theorem parenMatch_eq_some {t : List Char} {ds rest : List Char}
    (h : parenMatch t = some (ds, rest)) :
    DigitsWF ds ∧ t = '(' :: (ds ++ ')' :: rest) := by
  match t with
  | [] => simp [parenMatch] at h
  | c :: u =>
    simp only [parenMatch] at h
    split at h
    · rename_i hc
      obtain ⟨hc1, hc2, hc3⟩ := hc
      injection h with h'
      injection h' with h1 h2
      subst h1; subst hc1
      have hsplit := List.takeWhile_append_dropWhile (p := isDigitChar) (l := u)
      constructor
      · exact ⟨hc2, fun x hx => List.mem_takeWhile_imp hx⟩
      · have hu : u.dropWhile isDigitChar = ')' :: rest := by
          match hdw : u.dropWhile isDigitChar with
          | [] => rw [hdw] at hc3; simp at hc3
          | r0 :: r =>
            rw [hdw] at hc3 h2
            simp only [List.head?_cons, Option.some.injEq] at hc3
            simp only [List.tail_cons] at h2
            rw [hc3, h2]
        have hu2 : u = u.takeWhile isDigitChar ++ ')' :: rest := by
          conv_lhs => rw [← hsplit]
          rw [hu]
        simpa using hu2
    · cases h

theorem parenMatch_build {ds e : List Char} (hds : DigitsWF ds) :
    parenMatch ('(' :: (ds ++ ')' :: e)) = some (ds, e) := by
  have hrp : isDigitChar ')' = false := by decide
  have hta := takeWhile_all_append (p := isDigitChar) hds.2 hrp e
  show (if '(' = '(' ∧ (ds ++ ')' :: e).takeWhile isDigitChar ≠ [] ∧
      ((ds ++ ')' :: e).dropWhile isDigitChar).head? = some ')' then
      some ((ds ++ ')' :: e).takeWhile isDigitChar, ((ds ++ ')' :: e).dropWhile isDigitChar).tail)
    else none) = some (ds, e)
  rw [if_pos ⟨rfl, by rw [hta.1]; exact hds.1, by rw [hta.2]; rfl⟩]
  rw [hta.1, hta.2]
  rfl

theorem parenMatch_not_paren {t : List Char} (h : t.head? ≠ some '(') :
    parenMatch t = none := by
  match t with
  | [] => rfl
  | c :: rest =>
    simp only [List.head?_cons, ne_eq, Option.some.injEq] at h
    simp [parenMatch, h]

theorem tryTail_some_char {t : List Char} {d : Option (List Char)} {e : List Char}
    (h : tryTail t = some (d, e)) :
    (∃ ds, d = some ds ∧ DigitsWF ds ∧ ExtWF e ∧ t = '(' :: (ds ++ ')' :: e)) ∨
      (d = none ∧ ExtWF e ∧ t = e) := by
  unfold tryTail at h
  split at h
  · rename_i ds rest hp
    obtain ⟨hwf, ht⟩ := parenMatch_eq_some hp
    split at h
    · rename_i e' hx
      injection h with h'
      injection h' with h1 h2
      obtain ⟨hre, e'', he'', hdot⟩ := extMatch_eq_some hx
      subst h1; subst h2; subst hre
      exact Or.inl ⟨ds, rfl, hwf, Or.inr ⟨e'', he'', hdot⟩, ht⟩
    · rename_i hx
      split at h
      · rename_i hre
        injection h with h'
        injection h' with h1 h2
        subst h1; subst h2
        have hrnil : rest = [] := by
          cases rest with
          | nil => rfl
          | cons a l => simp at hre
        subst hrnil
        exact Or.inl ⟨ds, rfl, hwf, Or.inl rfl, ht⟩
      · cases h
  · rename_i hp
    split at h
    · rename_i e' hx
      injection h with h'
      injection h' with h1 h2
      obtain ⟨hre, e'', he'', hdot⟩ := extMatch_eq_some hx
      subst h1; subst h2
      exact Or.inr ⟨rfl, Or.inr ⟨e'', he'', hdot⟩, hre⟩
    · rename_i hx
      split at h
      · rename_i hte
        injection h with h'
        injection h' with h1 h2
        subst h1; subst h2
        have : t = [] := by
          cases t with
          | nil => rfl
          | cons a l => simp at hte
        exact Or.inr ⟨rfl, Or.inl rfl, this⟩
      · cases h

theorem tryTail_paren {ds e : List Char} (hds : DigitsWF ds) (he : ExtWF e) :
    tryTail ('(' :: (ds ++ ')' :: e)) = some (some ds, e) := by
  unfold tryTail
  rw [parenMatch_build hds]
  rcases he with he | ⟨e', he', hdot⟩
  · subst he; simp [extMatch]
  · subst he'
    simp only [extMatch_dot hdot]

theorem parseName_cons_some {c : Char} {rest : List Char} {d : Option (List Char)}
    {e : List Char} (htt : tryTail (c :: rest) = some (d, e)) :
    parseName (c :: rest) = ([], d, e) := by
  unfold parseName
  rw [htt]

theorem parseName_cons_none {c : Char} {rest : List Char}
    (htt : tryTail (c :: rest) = none) :
    parseName (c :: rest) = (c :: (parseName rest).1, (parseName rest).2) := by
  conv_lhs => unfold parseName
  rw [htt]

/-- The whole string is recovered from the three submatches. -/
theorem parseName_reconstruct (s : List Char) :
    s = (parseName s).1 ++ parenOpt (parseName s).2.1 ++ (parseName s).2.2 := by
  induction s with
  | nil => rfl
  | cons c rest ih =>
    cases htt : tryTail (c :: rest) with
    | some p =>
      obtain ⟨d, e⟩ := p
      rw [parseName_cons_some htt]
      rcases tryTail_some_char htt with ⟨ds, hd, _, _, ht⟩ | ⟨hd, _, ht⟩
      · subst hd; simpa [parenOpt] using ht
      · subst hd; simpa [parenOpt] using ht
    | none =>
      rw [parseName_cons_none htt]
      simp only [List.cons_append]
      conv_lhs => rw [ih]

/-- The submatches are well formed: the extension is empty or a dot plus a
dot-free tail, and the counter (when present) is a nonempty digit run. -/
theorem parseName_shape (s : List Char) :
    ExtWF (parseName s).2.2 ∧ ∀ ds, (parseName s).2.1 = some ds → DigitsWF ds := by
  induction s with
  | nil => exact ⟨Or.inl rfl, by simp [parseName]⟩
  | cons c rest ih =>
    cases htt : tryTail (c :: rest) with
    | some p =>
      obtain ⟨d, e⟩ := p
      rw [parseName_cons_some htt]
      rcases tryTail_some_char htt with ⟨ds, hd, hwf, he, _⟩ | ⟨hd, he, _⟩ <;> subst hd
      · exact ⟨he, fun ds' h => by cases h; exact hwf⟩
      · exact ⟨he, by simp⟩
    | none =>
      rw [parseName_cons_none htt]
      exact ih

/-- A string containing a dot never parses with an empty extension. -/
theorem ext_ne_nil_of_dot {s : List Char} (h : '.' ∈ s) :
    (parseName s).2.2 ≠ [] := by
  induction s with
  | nil => cases h
  | cons c rest ih =>
    cases htt : tryTail (c :: rest) with
    | some p =>
      obtain ⟨d, e⟩ := p
      rw [parseName_cons_some htt]
      rcases tryTail_some_char htt with ⟨ds, hd, hwf, he, ht⟩ | ⟨hd, he, ht⟩
      · intro hnil
        simp only at hnil
        subst hnil
        rw [ht] at h
        simp only [List.mem_cons, List.mem_append] at h
        rcases h with h | h | h
        · exact absurd h (by decide)
        · have := hwf.2 '.' h; simp [isDigitChar] at this
        · simp at h
      · intro hnil
        simp only at hnil
        subst hnil
        rw [ht] at h
        cases h
    | none =>
      rw [parseName_cons_none htt]
      have hr : '.' ∈ rest := by
        rcases List.mem_cons.1 h with hce | hm
        · subst hce
          by_contra hnr
          have habs : tryTail ('.' :: rest) = some (none, '.' :: rest) := by
            unfold tryTail
            rw [parenMatch_not_paren (by simp), extMatch_dot hnr]
          rw [habs] at htt; cases htt
        · exact hm
      exact ih hr

/-- No shorter stem can make the tail of a candidate
`st ++ "(" ++ D ++ ")" ++ e` match the optional groups. -/
theorem tryTail_none_mid {c : Char} {st' D e : List Char}
    (_hD : DigitsWF D) (he : ExtWF e) (hb : e = [] → '.' ∉ c :: st') :
    tryTail (c :: (st' ++ ('(' :: (D ++ ')' :: e)))) = none := by
  cases htt : tryTail (c :: (st' ++ ('(' :: (D ++ ')' :: e)))) with
  | none => rfl
  | some p =>
    exfalso
    obtain ⟨d, e2⟩ := p
    rcases tryTail_some_char htt with ⟨ds2, hd, hwf2, he2, ht⟩ | ⟨hd, he2, ht⟩
    · injection ht with hc hw2
      rcases List.append_eq_append_iff.1 hw2 with ⟨a', ha1, ha2⟩ | ⟨c', hc1, hc2⟩
      · match a' with
        | [] =>
          simp only [List.nil_append] at ha2
          injection ha2 with hpr _
          exact absurd hpr (by decide)
        | x :: a'' =>
          injection ha2 with hx _
          have hxmem : '(' ∈ ds2 := by rw [ha1, ← hx]; simp
          have := hwf2.2 '(' hxmem
          simp [isDigitChar] at this
      · match c' with
        | [] =>
          simp only [List.nil_append] at hc2
          injection hc2 with hpr _
          exact absurd hpr (by decide)
        | y :: pre =>
          injection hc2 with hy he2eq
          rcases he2 with he2n | ⟨e2', he2', hdot2⟩
          · rw [he2n] at he2eq
            exact absurd he2eq.symm (by simp)
          · rw [he2'] at he2eq
            match pre with
            | [] =>
              injection he2eq with hpr _
              exact absurd hpr (by decide)
            | q :: pre' =>
              injection he2eq with hq he2'eq
              rcases he with hen | ⟨e'', he'', hdot⟩
              · apply hb hen
                apply List.mem_cons_of_mem
                rw [hc1, ← hq]
                simp
              · apply hdot2
                rw [he2'eq, he'']
                simp
    · rcases he2 with he2n | ⟨e2', he2', hdot2⟩
      · rw [he2n] at ht; cases ht
      · rw [he2'] at ht
        injection ht with hc hw
        rcases he with hen | ⟨e'', he'', hdot⟩
        · exact (hb hen) (by rw [← hc]; simp)
        · apply hdot2
          rw [← hw, he'']
          simp

/-- Parsing a well-formed candidate `st ++ "(" ++ D ++ ")" ++ e` recovers
exactly the stem, the digits and the extension. -/
theorem parseName_candidate (st : List Char) {D e : List Char}
    (hD : DigitsWF D) (he : ExtWF e) (hb : e = [] → '.' ∉ st) :
    parseName (st ++ ('(' :: (D ++ ')' :: e))) = (st, some D, e) := by
  induction st with
  | nil =>
    simp only [List.nil_append]
    rw [parseName_cons_some (tryTail_paren hD he)]
  | cons c st' ih =>
    have hb' : e = [] → '.' ∉ st' :=
      fun h0 hm => hb h0 (List.mem_cons_of_mem _ hm)
    have htt := @tryTail_none_mid c st' D e hD he hb
    rw [List.cons_append, parseName_cons_none htt, ih hb']

/-- Re-parsing the next candidate keeps the stem and extension and bumps
the counter to `i + 1`. -/
theorem parseName_next (f : List Char) :
    parseName (nextCandidate f) =
      (stemOf f, some (natDigits (counterOf f + 1)), extOf f) := by
  unfold nextCandidate
  apply parseName_candidate
  · exact ⟨(natDigits_spec _).2.1, (natDigits_spec _).2.2⟩
  · exact (parseName_shape f).1
  · intro h0 hdot
    have hmem : '.' ∈ f := by
      rw [parseName_reconstruct f]
      exact List.mem_append_left _ (List.mem_append_left _ hdot)
    exact ext_ne_nil_of_dot hmem h0

theorem stemOf_next (f : List Char) : stemOf (nextCandidate f) = stemOf f := by
  simp [stemOf, parseName_next]

theorem extOf_next (f : List Char) : extOf (nextCandidate f) = extOf f := by
  simp [extOf, parseName_next]

theorem counterPart_next (f : List Char) :
    counterPart (nextCandidate f) = some (natDigits (counterOf f + 1)) := by
  simp [counterPart, parseName_next]

theorem counterOf_eq_some {f ds : List Char} (h : counterPart f = some ds) :
    counterOf f = digitsVal ds := by
  simp [counterOf, h]

theorem counterOf_next (f : List Char) :
    counterOf (nextCandidate f) = counterOf f + 1 := by
  rw [counterOf_eq_some (counterPart_next f), digitsVal_natDigits]

theorem nextCandidate_ne (f : List Char) : nextCandidate f ≠ f := by
  intro h
  have := counterOf_next f
  rw [h] at this
  omega

theorem length_filter_mono {α : Type} (p q : α → Bool) (l : List α)
    (hpq : ∀ x, p x = true → q x = true) :
    (l.filter p).length ≤ (l.filter q).length := by
  induction l with
  | nil => simp
  | cons a l ih =>
    by_cases hp : p a = true
    · rw [List.filter_cons_of_pos hp, List.filter_cons_of_pos (hpq a hp)]
      simpa using ih
    · rw [List.filter_cons_of_neg (by simpa using hp)]
      by_cases hq : q a = true
      · rw [List.filter_cons_of_pos hq]
        simp only [List.length_cons]
        omega
      · rw [List.filter_cons_of_neg (by simpa using hq)]
        exact ih

theorem length_filter_lt {α : Type} (p q : α → Bool) (l : List α)
    (hpq : ∀ x, p x = true → q x = true) (a : α) (ha : a ∈ l)
    (hqa : q a = true) (hpa : p a = false) :
    (l.filter p).length < (l.filter q).length := by
  induction l with
  | nil => cases ha
  | cons b l ih =>
    rcases List.mem_cons.1 ha with hb | hb
    · subst hb
      have hmono := length_filter_mono p q l hpq
      rw [List.filter_cons_of_neg (by simp [hpa]), List.filter_cons_of_pos hqa]
      simp only [List.length_cons]
      omega
    · by_cases hpb : p b = true
      · rw [List.filter_cons_of_pos hpb, List.filter_cons_of_pos (hpq b hpb)]
        simp only [List.length_cons]
        have := ih hb
        omega
      · rw [List.filter_cons_of_neg (by simpa using hpb)]
        by_cases hqb : q b = true
        · rw [List.filter_cons_of_pos hqb]
          simp only [List.length_cons]
          have := ih hb
          omega
        · rw [List.filter_cons_of_neg (by simpa using hqb)]
          exact ih hb

theorem chainWeight_next_lt (dir : List (List Char)) (f : List Char)
    (hf : f ∈ dir) : chainWeight dir (nextCandidate f) < chainWeight dir f := by
  apply length_filter_lt _ _ _ _ f hf
  · simp
  · simp only [decide_eq_false_iff_not, not_and]
    intro _ _
    rw [counterOf_next]
    omega
  · intro g hg
    simp only [decide_eq_true_eq] at hg ⊢
    obtain ⟨h1, h2, h3⟩ := hg
    rw [stemOf_next] at h1
    rw [extOf_next] at h2
    rw [counterOf_next] at h3
    exact ⟨h1, h2, by omega⟩

theorem chainWeight_le (dir : List (List Char)) (f : List Char) :
    chainWeight dir f ≤ dir.length :=
  List.length_filter_le _ _

/-- The recursion of `getUniqeFilename` terminates: `chainWeight` strictly
decreases at each recursive call, so fuel beyond it suffices. -/
theorem getUniqeFilenameF_some (dir : List (List Char)) (fuel : Nat) :
    ∀ file, chainWeight dir file < fuel →
      ∃ g, getUniqeFilenameF dir fuel file = some g := by
  induction fuel with
  | zero => intro file h; omega
  | succ n ih =>
    intro file h
    by_cases hf : file ∈ dir
    · have hlt := chainWeight_next_lt dir file hf
      obtain ⟨g, hg⟩ := ih (nextCandidate file) (by omega)
      exact ⟨g, by simp [getUniqeFilenameF, hf, hg]⟩
    · exact ⟨file, by simp [getUniqeFilenameF, hf]⟩

theorem getUniqeFilenameF_not_mem (dir : List (List Char)) (fuel : Nat) :
    ∀ file g, getUniqeFilenameF dir fuel file = some g → g ∉ dir := by
  induction fuel with
  | zero => intro file g h; cases h
  | succ n ih =>
    intro file g h
    by_cases hf : file ∈ dir
    · simp only [getUniqeFilenameF, hf, if_true] at h
      exact ih _ _ h
    · simp only [getUniqeFilenameF, hf, if_false] at h
      cases h
      exact hf

/-- The returned name is never one already present in the directory. -/
theorem getUniqeFilename_not_mem (dir : List (List Char)) (file : List Char) :
    getUniqeFilename dir file ∉ dir := by
  obtain ⟨g, hg⟩ := getUniqeFilenameF_some dir (dir.length + 1) file
    (by have := chainWeight_le dir file; omega)
  unfold getUniqeFilename
  rw [hg]
  exact getUniqeFilenameF_not_mem dir _ file g hg

/-- A name that does not exist yet is returned unchanged. -/
theorem getUniqeFilename_not_mem_eq (dir : List (List Char)) (file : List Char)
    (h : file ∉ dir) : getUniqeFilename dir file = file := by
  unfold getUniqeFilename getUniqeFilenameF
  simp [h]

/-- When the name exists but its successor does not, the successor is
returned. -/
theorem getUniqeFilename_step (dir : List (List Char)) (file : List Char)
    (hmem : file ∈ dir) (hnext : nextCandidate file ∉ dir) :
    getUniqeFilename dir file = nextCandidate file := by
  unfold getUniqeFilename
  have h1 : getUniqeFilenameF dir (dir.length + 1) file
      = getUniqeFilenameF dir dir.length (nextCandidate file) := by
    simp [getUniqeFilenameF, hmem]
  rw [h1]
  have hlen : 1 ≤ dir.length := by
    cases dir with
    | nil => cases hmem
    | cons a l => simp
  match hd : dir.length, hlen with
  | n + 1, _ =>
    simp [getUniqeFilenameF, hnext]

/-- Away from the `int64` boundary the Go increment agrees with the
unbounded candidate. -/
theorem nextCandidateGo_eq (f : List Char) (h : counterOf f < maxInt64) :
    nextCandidateGo f = some (nextCandidate f) := by
  unfold nextCandidateGo nextCandidate
  cases hcp : counterPart f with
  | none =>
    have h0 : counterOf f = 0 := by simp [counterOf, hcp]
    rw [h0]
  | some ds =>
    have hv : counterOf f = digitsVal ds := counterOf_eq_some hcp
    have hle : digitsVal ds ≤ maxInt64 := by omega
    have hne : ¬ digitsVal ds = maxInt64 := by omega
    simp [atoiGo, hle, goSuccChars, hne, hv]

/-- As long as `strconv.Atoi` accepts the counter, the program proposes
some candidate rather than dying. -/
theorem nextCandidateGo_isSome (f : List Char) (h : counterOf f ≤ maxInt64) :
    ∃ c, nextCandidateGo f = some c := by
  unfold nextCandidateGo
  cases hcp : counterPart f with
  | none => exact ⟨_, rfl⟩
  | some ds =>
    have hv : counterOf f = digitsVal ds := counterOf_eq_some hcp
    have hle : digitsVal ds ≤ maxInt64 := by omega
    simp [atoiGo, hle]

/-- Under a counter budget covering the whole fuel, the Go recursion and
the unbounded recursion coincide (and in particular the program does not
die). -/
theorem getUniqeFilenameGoF_eq (dir : List (List Char)) :
    ∀ (fuel : Nat) (file : List Char), counterOf file + fuel ≤ maxInt64 + 1 →
      getUniqeFilenameGoF dir fuel file =
        (getUniqeFilenameF dir fuel file).map some := by
  intro fuel
  induction fuel with
  | zero => intro file _; rfl
  | succ n ih =>
    intro file h
    by_cases hm : file ∈ dir
    · by_cases hc : counterOf file < maxInt64
      · simp only [getUniqeFilenameGoF, getUniqeFilenameF, hm, if_true,
          nextCandidateGo_eq file hc]
        exact ih (nextCandidate file) (by rw [counterOf_next]; omega)
      · have hn : n = 0 := by omega
        subst hn
        obtain ⟨c, hcw⟩ := nextCandidateGo_isSome file (by omega)
        simp [getUniqeFilenameGoF, getUniqeFilenameF, hm, hcw]
    · simp [getUniqeFilenameGoF, getUniqeFilenameF, hm]

theorem processParts_spec (fetch : Nat → Nat → List Char) (mid : Nat) (idate : Int) :
    ∀ (parts : List MessagePart) (dir : List (List Char)) evs dir',
      processParts fetch mid idate dir parts = some (evs, dir') →
      (∀ ev ∈ evs, ev.name ∉ ev.dirBefore ∧ ev.internalDate = idate ∧
        ev.mtimeSec = Int.tdiv idate 1000 ∧ dir ⊆ ev.dirBefore) ∧
      dir' = (evs.map (·.name)).reverse ++ dir ∧
      (∀ p ∈ parts, p.filename ≠ [] →
        ∃ ev ∈ evs, some ev.data = b64UrlDecode (fetch mid p.attachmentId)) := by
  intro parts
  induction parts with
  | nil =>
    intro dir evs dir' h
    simp only [processParts] at h
    injection h with h'
    injection h' with h1 h2
    subst h1; subst h2
    exact ⟨by simp, by simp, by simp⟩
  | cons p ps ih =>
    intro dir evs dir' h
    simp only [processParts] at h
    by_cases hf : p.filename = []
    · rw [if_pos hf] at h
      obtain ⟨hevs, hdir, hparts⟩ := ih dir evs dir' h
      refine ⟨hevs, hdir, ?_⟩
      intro q hq hqf
      rcases List.mem_cons.1 hq with rfl | hq'
      · exact absurd hf hqf
      · exact hparts q hq' hqf
    · rw [if_neg hf] at h
      match hdec : b64UrlDecode (fetch mid p.attachmentId) with
      | none => rw [hdec] at h; cases h
      | some data =>
        rw [hdec] at h
        simp only at h
        match hrec : processParts fetch mid idate
            (getUniqeFilename dir p.filename :: dir) ps with
        | none => rw [hrec] at h; cases h
        | some (evs2, dir2) =>
          rw [hrec] at h
          injection h with h'
          injection h' with h1 h2
          subst h1; subst h2
          obtain ⟨hevs, hdir, hparts⟩ := ih _ evs2 dir2 hrec
          refine ⟨?_, ?_, ?_⟩
          · intro ev hev
            rcases List.mem_cons.1 hev with rfl | hev'
            · exact ⟨getUniqeFilename_not_mem dir p.filename, rfl, rfl,
                List.Subset.refl dir⟩
            · obtain ⟨h1, h2, h3, h4⟩ := hevs ev hev'
              exact ⟨h1, h2, h3, fun x hx => h4 (List.mem_cons_of_mem _ hx)⟩
          · rw [hdir]
            simp
          · intro q hq hqf
            rcases List.mem_cons.1 hq with rfl | hq'
            · exact ⟨_, List.mem_cons_self _ _, hdec.symm⟩
            · obtain ⟨ev, hev, hed⟩ := hparts q hq' hqf
              exact ⟨ev, List.mem_cons_of_mem _ hev, hed⟩

theorem gmailDownloadAttachments_spec (fetch : Nat → Nat → List Char) :
    ∀ (msgs : List GMessage) (dir : List (List Char)) evs dir',
      gmailDownloadAttachments fetch dir msgs = some (evs, dir') →
      (∀ ev ∈ evs, ev.name ∉ ev.dirBefore ∧
        ev.mtimeSec = Int.tdiv ev.internalDate 1000 ∧ dir ⊆ ev.dirBefore) ∧
      dir' = (evs.map (·.name)).reverse ++ dir ∧
      (∀ m ∈ msgs, ∀ p ∈ m.parts, p.filename ≠ [] →
        ∃ ev ∈ evs, some ev.data = b64UrlDecode (fetch m.id p.attachmentId) ∧
          ev.internalDate = m.internalDate) := by
  intro msgs
  induction msgs with
  | nil =>
    intro dir evs dir' h
    simp only [gmailDownloadAttachments] at h
    injection h with h'
    injection h' with h1 h2
    subst h1; subst h2
    exact ⟨by simp, by simp, by simp⟩
  | cons m ms ih =>
    intro dir evs dir' h
    simp only [gmailDownloadAttachments] at h
    match hpp : processParts fetch m.id m.internalDate dir m.parts with
    | none => rw [hpp] at h; cases h
    | some (evs1, dir1) =>
      rw [hpp] at h
      simp only at h
      match hw : gmailDownloadAttachments fetch dir1 ms with
      | none => rw [hw] at h; cases h
      | some (evs2, dir2) =>
        rw [hw] at h
        injection h with h'
        injection h' with h1 h2
        subst h1; subst h2
        obtain ⟨hevs1, hdir1, hparts1⟩ := processParts_spec fetch m.id m.internalDate
          m.parts dir evs1 dir1 hpp
        obtain ⟨hevs2, hdir2, hmsgs2⟩ := ih dir1 evs2 dir2 hw
        have hsub : dir ⊆ dir1 := by
          rw [hdir1]; exact List.subset_append_right _ _
        refine ⟨?_, ?_, ?_⟩
        · intro ev hev
          rcases List.mem_append.1 hev with hev' | hev'
          · obtain ⟨h1, h2, h3, h4⟩ := hevs1 ev hev'
            exact ⟨h1, by rw [h2, h3], h4⟩
          · obtain ⟨h1, h2, h3⟩ := hevs2 ev hev'
            exact ⟨h1, h2, fun x hx => h3 (hsub hx)⟩
        · rw [hdir2, hdir1]
          simp
        · intro m' hm' p hp hpf
          rcases List.mem_cons.1 hm' with rfl | hm''
          · obtain ⟨ev, hev, hed⟩ := hparts1 p hp hpf
            obtain ⟨_, hid, _, _⟩ := hevs1 ev hev
            exact ⟨ev, List.mem_append_left _ hev, hed, hid⟩
          · obtain ⟨ev, hev, hed, hid⟩ := hmsgs2 m' hm'' p hp hpf
            exact ⟨ev, List.mem_append_right _ hev, hed, hid⟩

/-! ## Claim theorems -/

/-- C1 (counterexample).  The claim says applying the disambiguator again
with the directory extended by its own output yields the name with the
next counter value.  With `foo(1).txt` already present, the first call on
`foo.txt` returns it unchanged (counter 0), but the second call skips the
occupied counter 1 and returns `foo(2).txt`, whose counter is 2, not 1. -/
theorem claim1_counterexample :
    getUniqeFilename ["foo(1).txt".toList] "foo.txt".toList = "foo.txt".toList ∧
    getUniqeFilename ("foo.txt".toList :: ["foo(1).txt".toList]) "foo.txt".toList
      = "foo(2).txt".toList ∧
    getUniqeFilename ("foo.txt".toList :: ["foo(1).txt".toList]) "foo.txt".toList
      ≠ nextCandidate "foo.txt".toList ∧
    counterOf "foo(2).txt".toList ≠ counterOf "foo.txt".toList + 1 := by
  decide

/-- C1 (amended).  Away from the `int64` boundary -- when the starting
counter plus the recursion budget stays below `math.MaxInt64`, so
`strconv.Atoi` never fails and `i+1` never wraps -- the Go disambiguator
returns a name `g` not present in `dir`; if `file` is absent it is
returned unchanged; and re-applying it with the directory extended by its
own output yields the successor name `stem(counter+1)ext` of `g` -- whose
counter is one above `g`'s -- provided that successor is not itself
already present in `dir` and `g`'s counter also respects the boundary. -/
theorem claim1_theorem (dir : List (List Char)) (file : List Char)
    (hbound : counterOf file + dir.length ≤ maxInt64) :
    ∃ g, getUniqeFilenameGo dir file = some g ∧ g ∉ dir ∧
      (file ∉ dir → g = file) ∧
      (counterOf g + dir.length + 1 ≤ maxInt64 → nextCandidate g ∉ dir →
        getUniqeFilenameGo (g :: dir) g = some (nextCandidate g) ∧
        counterOf (nextCandidate g) = counterOf g + 1) := by
  have h1 : getUniqeFilenameGoF dir (dir.length + 1) file
      = (getUniqeFilenameF dir (dir.length + 1) file).map some :=
    getUniqeFilenameGoF_eq dir (dir.length + 1) file (by omega)
  obtain ⟨g, hg⟩ := getUniqeFilenameF_some dir (dir.length + 1) file
    (by have := chainWeight_le dir file; omega)
  refine ⟨g, ?_, getUniqeFilenameF_not_mem dir _ file g hg, ?_, ?_⟩
  · unfold getUniqeFilenameGo
    rw [h1, hg]
    rfl
  · intro hnm
    have hfile : getUniqeFilenameF dir (dir.length + 1) file = some file := by
      simp [getUniqeFilenameF, hnm]
    rw [hfile] at hg
    exact (Option.some.inj hg).symm
  · intro hb2 hnext
    have hnotmem : nextCandidate g ∉ g :: dir := by
      intro hmem'
      rcases List.mem_cons.1 hmem' with heq | hin
      · exact nextCandidate_ne g heq
      · exact hnext hin
    have h2 : getUniqeFilenameGoF (g :: dir) ((g :: dir).length + 1) g
        = (getUniqeFilenameF (g :: dir) ((g :: dir).length + 1) g).map some :=
      getUniqeFilenameGoF_eq (g :: dir) ((g :: dir).length + 1) g
        (by simp only [List.length_cons]; omega)
    have hF : getUniqeFilenameF (g :: dir) ((g :: dir).length + 1) g
        = some (nextCandidate g) := by
      have hmem : g ∈ g :: dir := List.mem_cons_self _ _
      have hstep : getUniqeFilenameF (g :: dir) ((g :: dir).length + 1) g
          = getUniqeFilenameF (g :: dir) (g :: dir).length (nextCandidate g) := by
        simp [getUniqeFilenameF, hmem]
      rw [hstep]
      show getUniqeFilenameF (g :: dir) (dir.length + 1) (nextCandidate g) = _
      simp [getUniqeFilenameF, hnotmem]
    refine ⟨?_, counterOf_next g⟩
    unfold getUniqeFilenameGo
    rw [h2, hF]
    rfl

theorem claim1_theorem_witness :
    ∃ g, getUniqeFilenameGo [] "a".toList = some g ∧
      g ∉ ([] : List (List Char)) ∧
      ("a".toList ∉ ([] : List (List Char)) → g = "a".toList) ∧
      (counterOf g + List.length ([] : List (List Char)) + 1 ≤ maxInt64 →
        nextCandidate g ∉ ([] : List (List Char)) →
        getUniqeFilenameGo (g :: []) g = some (nextCandidate g) ∧
        counterOf (nextCandidate g) = counterOf g + 1) :=
  claim1_theorem [] "a".toList (by decide)

/-- C2.  In every successful run of the attachment walker, each written
file's name is absent from the directory at the moment of writing (so no
existing file is overwritten), and every file present at the start of the
run is still in the directory at each write. -/
theorem claim2_theorem (fetch : Nat → Nat → List Char) (msgs : List GMessage)
    (dir : List (List Char)) (evs : List WriteEvent) (dir' : List (List Char))
    (hrun : gmailDownloadAttachments fetch dir msgs = some (evs, dir'))
    (ev : WriteEvent) (hev : ev ∈ evs) :
    ev.name ∉ ev.dirBefore ∧ dir ⊆ ev.dirBefore := by
  obtain ⟨hevs, _, _⟩ := gmailDownloadAttachments_spec fetch msgs dir evs dir' hrun
  obtain ⟨h1, _, h3⟩ := hevs ev hev
  exact ⟨h1, h3⟩

theorem claim2_theorem_witness :
    (⟨"a.txt".toList, [0], 5000, 5, []⟩ : WriteEvent).name ∉
      (⟨"a.txt".toList, [0], 5000, 5, []⟩ : WriteEvent).dirBefore ∧
    ([] : List (List Char)) ⊆ (⟨"a.txt".toList, [0], 5000, 5, []⟩ : WriteEvent).dirBefore :=
  claim2_theorem (fun _ _ => "AA==".toList) [⟨1, 5000, [⟨"a.txt".toList, 9⟩]⟩]
    [] [⟨"a.txt".toList, [0], 5000, 5, []⟩] ["a.txt".toList]
    (by decide) _ (by decide)

/-- C3 (counterexample).  The general clause -- on every collision the
program proposes `stem(counter+1)ext` -- fails at the `int64` boundary: at
counter `math.MaxInt64` Go's `i+1` wraps to `math.MinInt64` and the
proposed candidate is `a(-9223372036854775808)`, not the incremented
`a(9223372036854775808)`. -/
theorem claim3_counterexample :
    counterOf "a(9223372036854775807)".toList = maxInt64 ∧
    nextCandidateGo "a(9223372036854775807)".toList =
      some "a(-9223372036854775808)".toList ∧
    nextCandidateGo "a(9223372036854775807)".toList ≠
      some (stemOf "a(9223372036854775807)".toList ++
        ('(' :: (natDigits (counterOf "a(9223372036854775807)".toList + 1) ++ ')' ::
          extOf "a(9223372036854775807)".toList))) := by decide

/-- C3 (amended).  The disambiguator parses a colliding name into stem,
parenthesised counter (0 when absent) and final dot-extension; below the
`int64` boundary it proposes `stem(counter+1)ext` and recurses; in
particular the three examples of the spec hold. -/
theorem claim3_theorem :
    getUniqeFilename ["foo.txt".toList] "foo.txt".toList = "foo(1).txt".toList ∧
    getUniqeFilename ["foo.txt".toList, "foo(1).txt".toList] "foo.txt".toList
      = "foo(2).txt".toList ∧
    getUniqeFilename ["foo".toList] "foo".toList = "foo(1)".toList ∧
    parseName "foo.txt".toList = ("foo".toList, none, ".txt".toList) ∧
    parseName "foo(1).txt".toList = ("foo".toList, some "1".toList, ".txt".toList) ∧
    ∀ (dir : List (List Char)) (file : List Char) (fuel : Nat), file ∈ dir →
      counterOf file < maxInt64 →
      getUniqeFilenameGoF dir (fuel + 1) file =
        getUniqeFilenameGoF dir fuel
          (stemOf file ++ ('(' :: (natDigits (counterOf file + 1) ++ ')' :: extOf file))) := by
  refine ⟨by decide, by decide, by decide, by decide, by decide, ?_⟩
  intro dir file fuel hmem hlt
  simp only [getUniqeFilenameGoF, hmem, if_true, nextCandidateGo_eq file hlt]
  rfl

theorem claim3_theorem_witness :
    getUniqeFilenameGoF ["a".toList] 1 "a".toList =
      getUniqeFilenameGoF ["a".toList] 0
        (stemOf "a".toList ++ ('(' :: (natDigits (counterOf "a".toList + 1) ++ ')' ::
          extOf "a".toList))) :=
  claim3_theorem.2.2.2.2.2 ["a".toList] "a".toList 0 (by decide) (by decide)

/-- C4 (counterexample).  The claim asserts every request with a mismatched
`state` gets HTTP 500, and that `/favicon.ico` requests get 404.  A request
to `/favicon.ico` with a mismatched state gets 404, not 500: the favicon
check runs first. -/
theorem claim4_counterexample :
    (⟨"/favicon.ico", "bad", ""⟩ : CallbackRequest).state ≠ "st123" ∧
    (authCallbackHandler "st123" ⟨"/favicon.ico", "bad", ""⟩).status = 404 ∧
    (authCallbackHandler "st123" ⟨"/favicon.ico", "bad", ""⟩).status ≠ 500 := by
  decide

/-- C4 (amended).  A request with a mismatched state never delivers a code;
it is answered with 500 unless it targets `/favicon.ico`, which is
rejected with 404 (and no code) regardless of the state; and a run in
which every request has a mismatched state delivers no code at all. -/
theorem claim4_theorem (randState : String) (req : CallbackRequest) :
    (req.state ≠ randState → (authCallbackHandler randState req).delivered = none) ∧
    (req.state ≠ randState → req.path ≠ "/favicon.ico" →
      authCallbackHandler randState req = ⟨500, none⟩) ∧
    (req.path = "/favicon.ico" → authCallbackHandler randState req = ⟨404, none⟩) ∧
    ∀ reqs : List CallbackRequest, (∀ r ∈ reqs, r.state ≠ randState) →
      deliveredCode randState reqs = none := by
  refine ⟨?_, ?_, ?_, ?_⟩
  · intro hs
    unfold authCallbackHandler
    by_cases hp : req.path = "/favicon.ico" <;> simp [hp, hs]
  · intro hs hp
    unfold authCallbackHandler
    simp [hp, hs]
  · intro hp
    unfold authCallbackHandler
    simp [hp]
  · intro reqs hall
    induction reqs with
    | nil => rfl
    | cons r rs ih =>
      have hr : (authCallbackHandler randState r).delivered = none := by
        have hs := hall r (List.mem_cons_self _ _)
        unfold authCallbackHandler
        by_cases hp : r.path = "/favicon.ico" <;> simp [hp, hs]
      simp only [deliveredCode, List.findSome?] at ih ⊢
      rw [hr]
      exact ih fun x hx => hall x (List.mem_cons_of_mem _ hx)

theorem claim4_theorem_witness :
    (authCallbackHandler "st1" ⟨"/x", "bad", "c"⟩).delivered = none ∧
    authCallbackHandler "st1" ⟨"/x", "bad", "c"⟩ = ⟨500, none⟩ ∧
    deliveredCode "st1" [⟨"/x", "bad", "c"⟩, ⟨"/favicon.ico", "bad", ""⟩] = none :=
  ⟨( claim4_theorem "st1" ⟨"/x", "bad", "c"⟩).1 (by decide),
   ( claim4_theorem "st1" ⟨"/x", "bad", "c"⟩).2.1 (by decide) (by decide),
   ( claim4_theorem "st1" ⟨"/x", "bad", "c"⟩).2.2.2
     [⟨"/x", "bad", "c"⟩, ⟨"/favicon.ico", "bad", ""⟩] (by decide)⟩

/-- C5.  In every successful run, every part with a nonempty filename has
its attachment body fetched by (message id, attachment id), decoded as
padded base64 over the URL-safe alphabet, and written under a name that
did not exist in the directory at the moment of writing. -/
theorem claim5_theorem (fetch : Nat → Nat → List Char) (msgs : List GMessage)
    (dir : List (List Char)) (evs : List WriteEvent) (dir' : List (List Char))
    (hrun : gmailDownloadAttachments fetch dir msgs = some (evs, dir'))
    (m : GMessage) (hm : m ∈ msgs) (p : MessagePart) (hp : p ∈ m.parts)
    (hpf : p.filename ≠ []) :
    ∃ ev ∈ evs, some ev.data = b64UrlDecode (fetch m.id p.attachmentId) ∧
      ev.name ∉ ev.dirBefore := by
  obtain ⟨hevs, _, hmsgs⟩ := gmailDownloadAttachments_spec fetch msgs dir evs dir' hrun
  obtain ⟨ev, hev, hdata, _⟩ := hmsgs m hm p hp hpf
  exact ⟨ev, hev, hdata, (hevs ev hev).1⟩

theorem claim5_theorem_witness :
    ∃ ev ∈ [(⟨"a.txt".toList, [0], 5000, 5, []⟩ : WriteEvent)],
      some ev.data = b64UrlDecode ((fun _ _ => "AA==".toList) 1 9) ∧
      ev.name ∉ ev.dirBefore :=
  claim5_theorem (fun _ _ => "AA==".toList) [⟨1, 5000, [⟨"a.txt".toList, 9⟩]⟩]
    [] [⟨"a.txt".toList, [0], 5000, 5, []⟩] ["a.txt".toList]
    (by decide) ⟨1, 5000, [⟨"a.txt".toList, 9⟩]⟩ (by decide)
    ⟨"a.txt".toList, 9⟩ (by decide) (by decide)

/-- C6 (counterexample).  The claim says the cache-file name hashes the
*sorted* scope list; the code hashes the scopes in the order given, so for
scopes `["b", "a"]` the actual path differs from the sorted-scope one. -/
theorem claim6_counterexample :
    tokenCacheFile (strToBytes "/c") (strToBytes "gd") (strToBytes "id")
        (strToBytes "sec") [strToBytes "b", strToBytes "a"] ≠
      tokenCacheFileSortedSpec (strToBytes "/c") (strToBytes "gd") (strToBytes "id")
        (strToBytes "sec") [strToBytes "b", strToBytes "a"] := by
  decide

/-- C6 (amended).  The cache path is a deterministic function of the
config: the user cache directory, then `/`, then the query-escaped
`progName-tok<h>` where `h` is the 32-bit FNV-1a hash of the client id,
the client secret, and the scope list joined by spaces in the order given
(not sorted). -/
theorem claim6_theorem (cacheDir progName clientID clientSecret : List Nat)
    (scopes : List (List Nat)) :
    tokenCacheFile cacheDir progName clientID clientSecret scopes =
      cacheDir ++ 47 :: queryEscape (progName ++ strToBytes "-tok" ++
        natDecBytes (fnvUpdate fnv32aInit
          (clientID ++ clientSecret ++ List.intercalate [32] scopes))) := by
  unfold tokenCacheFile tokenCacheHash fnvUpdate
  rw [List.foldl_append, List.foldl_append]

/-- C7.  Every written attachment's modification time is the owning
message's internal date divided by 1000 with Go's truncating division; for
nonnegative internal dates this is exactly the seconds value obtained by
discarding the sub-second milliseconds. -/
theorem claim7_theorem (fetch : Nat → Nat → List Char) (msgs : List GMessage)
    (dir : List (List Char)) (evs : List WriteEvent) (dir' : List (List Char))
    (hrun : gmailDownloadAttachments fetch dir msgs = some (evs, dir'))
    (ev : WriteEvent) (hev : ev ∈ evs) :
    ev.mtimeSec = Int.tdiv ev.internalDate 1000 ∧
    (0 ≤ ev.internalDate →
      1000 * ev.mtimeSec ≤ ev.internalDate ∧
        ev.internalDate < 1000 * ev.mtimeSec + 1000) := by
  obtain ⟨hevs, _, _⟩ := gmailDownloadAttachments_spec fetch msgs dir evs dir' hrun
  obtain ⟨_, h2, _⟩ := hevs ev hev
  refine ⟨h2, ?_⟩
  intro hpos
  have htd : Int.tdiv ev.internalDate 1000 = ev.internalDate / 1000 :=
    Int.tdiv_eq_ediv hpos (by norm_num)
  have hdm := Int.ediv_add_emod ev.internalDate 1000
  have hm0 : 0 ≤ ev.internalDate % 1000 := Int.emod_nonneg _ (by norm_num)
  have hml : ev.internalDate % 1000 < 1000 := Int.emod_lt_of_pos _ (by norm_num)
  rw [h2, htd]
  omega

theorem claim7_theorem_witness :
    (⟨"a.txt".toList, [0], 5000, 5, []⟩ : WriteEvent).mtimeSec =
        Int.tdiv (⟨"a.txt".toList, [0], 5000, 5, []⟩ : WriteEvent).internalDate 1000 ∧
    1000 * (⟨"a.txt".toList, [0], 5000, 5, []⟩ : WriteEvent).mtimeSec ≤
        (⟨"a.txt".toList, [0], 5000, 5, []⟩ : WriteEvent).internalDate ∧
      (⟨"a.txt".toList, [0], 5000, 5, []⟩ : WriteEvent).internalDate <
        1000 * (⟨"a.txt".toList, [0], 5000, 5, []⟩ : WriteEvent).mtimeSec + 1000 :=
  ⟨(claim7_theorem (fun _ _ => "AA==".toList) [⟨1, 5000, [⟨"a.txt".toList, 9⟩]⟩]
      [] [⟨"a.txt".toList, [0], 5000, 5, []⟩] ["a.txt".toList]
      (by decide) _ (by decide)).1,
   (claim7_theorem (fun _ _ => "AA==".toList) [⟨1, 5000, [⟨"a.txt".toList, 9⟩]⟩]
      [] [⟨"a.txt".toList, [0], 5000, 5, []⟩] ["a.txt".toList]
      (by decide) _ (by decide)).2 (by decide)⟩

/-- C9.  When `--cachetoken` is set and persisting the fresh token fails
(`os.Create` error), `saveToken` only logs a warning -- the process is not
terminated -- and the run continues with the freshly obtained web token. -/
theorem claim9_theorem (cacheRead : Option OToken) (webToken : OToken)
    (hmiss : tokenFromFile true cacheRead = none) :
    (saveToken false).fatal = false ∧
    LogEvent.warnCacheFail ∈ (saveToken false).events ∧
    (saveToken false).wrote = false ∧
    newOAuthClient true cacheRead webToken false =
      (webToken, [LogEvent.warnCacheFail], false) := by
  refine ⟨rfl, by simp [saveToken], rfl, ?_⟩
  unfold newOAuthClient
  rw [hmiss]
  rfl

theorem claim9_theorem_witness :
    (saveToken false).fatal = false ∧
    LogEvent.warnCacheFail ∈ (saveToken false).events ∧
    (saveToken false).wrote = false ∧
    newOAuthClient true none ⟨"at", "rt", 7⟩ false =
      (⟨"at", "rt", 7⟩, [LogEvent.warnCacheFail], false) :=
  claim9_theorem none ⟨"at", "rt", 7⟩ (by decide)

/-- C10 (counterexample).  At the `int64` boundary both parts of the
claim fail: on a collision at counter `math.MaxInt64` the wrapped
candidate re-parses with counter `0` (no strict increase), and when the
captured counter overflows `int64` the program dies in `log.Fatalf`
instead of reaching a name absent from the directory. -/
theorem claim10_counterexample :
    nextCandidateGo "b(9223372036854775807)".toList =
      some "b(-9223372036854775808)".toList ∧
    counterOf "b(-9223372036854775808)".toList = 0 ∧
    ¬ counterOf "b(9223372036854775807)".toList <
        counterOf "b(-9223372036854775808)".toList ∧
    getUniqeFilenameGoF ["b(9999999999999999999)".toList] 2
      "b(9999999999999999999)".toList = some none := by decide

/-- C10 (amended).  Away from the `int64` boundary -- when the starting
counter plus the recursion budget stays below `math.MaxInt64` -- the Go
recursion terminates within `|dir| + 1` steps with a name, because below
the boundary each proposed candidate keeps the stem and extension and
strictly increases the counter; at the boundary the program instead wraps
or fatally aborts. -/
theorem claim10_theorem (dir : List (List Char)) (file : List Char)
    (hbound : counterOf file + dir.length ≤ maxInt64) :
    (∃ g, getUniqeFilenameGoF dir (dir.length + 1) file = some (some g)) ∧
    (∀ f, counterOf f < maxInt64 →
      nextCandidateGo f = some (nextCandidate f) ∧
      counterOf (nextCandidate f) = counterOf f + 1 ∧
      stemOf (nextCandidate f) = stemOf f ∧
      extOf (nextCandidate f) = extOf f) := by
  constructor
  · obtain ⟨g, hg⟩ := getUniqeFilenameF_some dir (dir.length + 1) file
      (by have := chainWeight_le dir file; omega)
    refine ⟨g, ?_⟩
    rw [getUniqeFilenameGoF_eq dir (dir.length + 1) file (by omega), hg]
    rfl
  · intro f hf
    exact ⟨nextCandidateGo_eq f hf, counterOf_next f, stemOf_next f, extOf_next f⟩

theorem claim10_theorem_witness :
    (∃ g, getUniqeFilenameGoF ["b".toList] 2 "b".toList = some (some g)) ∧
    (∀ f, counterOf f < maxInt64 →
      nextCandidateGo f = some (nextCandidate f) ∧
      counterOf (nextCandidate f) = counterOf f + 1 ∧
      stemOf (nextCandidate f) = stemOf f ∧
      extOf (nextCandidate f) = extOf f) :=
  claim10_theorem ["b".toList] "b".toList (by decide)

/-! ### Generic runner lemmas -/

theorem runM_cons_some {σ : Type} {step : σ → Char → Option σ} {st st' : σ}
    {c : Char} (h : step st c = some st') (cs : List Char) :
    runM step st (c :: cs) = runM step st' cs := by
  simp [runM, h]

theorem runM_cons_none {σ : Type} {step : σ → Char → Option σ} {st : σ}
    {c : Char} (h : step st c = none) (cs : List Char) :
    runM step st (c :: cs) = none := by
  simp [runM, h]

theorem runM_ws {σ : Type} (step : σ → Char → Option σ) (st : σ)
    (h : ∀ c, isWS c = true → step st c = some st) :
    ∀ ws, (∀ c ∈ ws, isWS c = true) → ∀ rest,
      runM step st (ws ++ rest) = runM step st rest := by
  intro ws
  induction ws with
  | nil => intro _ rest; rfl
  | cons c cs ih =>
    intro hws rest
    rw [List.cons_append, runM_cons_some (h c (hws c (by simp)))]
    exact ih (fun x hx => hws x (by simp [hx])) rest

/-! ### Character classes -/

theorem char_ne_of_toNat {c d : Char} (h : c.toNat ≠ d.toNat) : c ≠ d :=
  fun he => h (by rw [he])

theorem isDigitChar_toNat {c : Char} (h : isDigitChar c = true) :
    48 ≤ c.toNat ∧ c.toNat ≤ 57 := by
  simpa [isDigitChar] using h

theorem digit_class {c : Char} (h : isDigitChar c = true) :
    isWS c = false ∧ c ≠ '}' ∧ c ≠ ',' := by
  obtain ⟨h1, h2⟩ := isDigitChar_toNat h
  have e1 : (' ' : Char).toNat = 32 := by decide
  have e2 : ('\t' : Char).toNat = 9 := by decide
  have e3 : ('\n' : Char).toNat = 10 := by decide
  have e4 : ('\r' : Char).toNat = 13 := by decide
  have e5 : ('}' : Char).toNat = 125 := by decide
  have e6 : (',' : Char).toNat = 44 := by decide
  have hne : ∀ d : Char, c.toNat ≠ d.toNat → (c == d) = false := by
    intro d hd
    simp only [beq_eq_false_iff_ne, ne_eq]
    exact char_ne_of_toNat hd
  refine ⟨?_, char_ne_of_toNat (by omega), char_ne_of_toNat (by omega)⟩
  simp only [isWS, Bool.or_eq_false_iff]
  exact ⟨⟨⟨hne ' ' (by omega), hne '\t' (by omega)⟩, hne '\n' (by omega)⟩,
    hne '\r' (by omega)⟩

theorem hexDigit_facts : ∀ n, n < 16 →
    isHexDigitChar (hexDigit n) = true ∧ hexVal (hexDigit n) = n := by
  decide

theorem hexDigit_lt_16 (b : Nat) (hb : b < 256) : b / 16 < 16 ∧ b % 16 < 16 := by
  omega

/-! ### Integer items -/

theorem iStep_start_ws (acc : List Nat) :
    ∀ c, isWS c = true → iStep (.start, acc) c = some (.start, acc) := by
  intro c hc
  simp [iStep, hc]

theorem runM_itemHexx (b : Nat) (hb : b < 256) (acc : List Nat) (rest : List Char) :
    runM iStep (.start, acc) (itemHexx b ++ (',' :: rest)) =
      runM iStep (.start, b :: acc) rest := by
  obtain ⟨hx1, hv1⟩ := hexDigit_facts (b / 16) (by omega)
  obtain ⟨hx2, hv2⟩ := hexDigit_facts (b % 16) (by omega)
  have heq : 16 * (b / 16) + b % 16 = b := by omega
  have s0 : iStep (.start, acc) '0' = some (.zero, acc) := by simp +decide [iStep]
  have s1 : iStep (.zero, acc) 'x' = some (.hexStart, acc) := by simp +decide [iStep]
  have s2 : iStep (.hexStart, acc) (hexDigit (b / 16)) = some (.hexNum (b / 16), acc) := by
    simp [iStep, hx1, hv1]
  have s3 : iStep (.hexNum (b / 16), acc) (hexDigit (b % 16)) = some (.hexNum b, acc) := by
    simp [iStep, hx2, hv2, heq]
  have s4 : iStep (.hexNum b, acc) ',' = some (.start, b :: acc) := by
    simp +decide [iStep]
  show runM iStep (.start, acc)
      ('0' :: 'x' :: hexDigit (b / 16) :: hexDigit (b % 16) :: ',' :: rest) = _
  rw [runM_cons_some s0, runM_cons_some s1, runM_cons_some s2,
    runM_cons_some s3, runM_cons_some s4]

theorem runM_itemHex (b : Nat) (hb : b < 256) (acc : List Nat) (rest : List Char) :
    runM iStep (.start, acc) (itemHex b ++ (',' :: rest)) =
      runM iStep (.start, b :: acc) rest := by
  have s0 : iStep (.start, acc) '0' = some (.zero, acc) := by simp +decide [iStep]
  have s1 : iStep (.zero, acc) 'x' = some (.hexStart, acc) := by simp +decide [iStep]
  by_cases hb16 : b < 16
  · obtain ⟨hx1, hv1⟩ := hexDigit_facts b hb16
    have s2 : iStep (.hexStart, acc) (hexDigit b) = some (.hexNum b, acc) := by
      simp [iStep, hx1, hv1]
    have s4 : iStep (.hexNum b, acc) ',' = some (.start, b :: acc) := by
      simp +decide [iStep]
    have hshape : itemHex b = ['0', 'x', hexDigit b] := by
      simp [itemHex, hexMin, hb16]
    rw [hshape]
    show runM iStep (.start, acc) ('0' :: 'x' :: hexDigit b :: ',' :: rest) = _
    rw [runM_cons_some s0, runM_cons_some s1, runM_cons_some s2, runM_cons_some s4]
  · have hshape : itemHex b = ['0', 'x', hexDigit (b / 16), hexDigit (b % 16)] := by
      simp [itemHex, hexMin, hb16, hex2]
    obtain ⟨hx1, hv1⟩ := hexDigit_facts (b / 16) (by omega)
    obtain ⟨hx2, hv2⟩ := hexDigit_facts (b % 16) (by omega)
    have heq : 16 * (b / 16) + b % 16 = b := by omega
    have s2 : iStep (.hexStart, acc) (hexDigit (b / 16)) = some (.hexNum (b / 16), acc) := by
      simp [iStep, hx1, hv1]
    have s3 : iStep (.hexNum (b / 16), acc) (hexDigit (b % 16)) = some (.hexNum b, acc) := by
      simp [iStep, hx2, hv2, heq]
    have s4 : iStep (.hexNum b, acc) ',' = some (.start, b :: acc) := by
      simp +decide [iStep]
    rw [hshape]
    show runM iStep (.start, acc)
        ('0' :: 'x' :: hexDigit (b / 16) :: hexDigit (b % 16) :: ',' :: rest) = _
    rw [runM_cons_some s0, runM_cons_some s1, runM_cons_some s2,
      runM_cons_some s3, runM_cons_some s4]

theorem runM_decRun : ∀ (ds : List Char), (∀ c ∈ ds, isDigitChar c = true) →
    ∀ (v : Nat) (acc : List Nat) (rest : List Char),
      runM iStep (.decNum v, acc) (ds ++ rest) =
        runM iStep (.decNum (ds.foldl (fun a c => 10 * a + (c.toNat - 48)) v), acc) rest := by
  intro ds
  induction ds with
  | nil => intro _ v acc rest; rfl
  | cons c cs ih =>
    intro hds v acc rest
    have hc : isDigitChar c = true := hds c (by simp)
    have s : iStep (.decNum v, acc) c = some (.decNum (10 * v + digitVal c), acc) := by
      simp [iStep, hc]
    rw [List.cons_append, runM_cons_some s,
      ih (fun x hx => hds x (by simp [hx])) _ acc rest]
    rfl

theorem natDigits_head_pos (b : Nat) (hb : 1 ≤ b) :
    ∃ c cs, natDigits b = c :: cs ∧ isDigitChar c = true ∧ c ≠ '0' ∧
      ∀ x ∈ cs, isDigitChar x = true := by
  induction b using Nat.strong_induction_on with
  | _ b ih =>
    by_cases hb10 : b < 10
    · refine ⟨digitChar b, [], by simp [natDigits, natDigitsF, hb10], ?_, ?_, by simp⟩
      · exact isDigitChar_digitChar b hb10
      · apply char_ne_of_toNat
        rw [digitChar_toNat b hb10]
        have : ('0' : Char).toNat = 48 := by decide
        omega
    · have hd : b / 10 < b := Nat.div_lt_self (by omega) (by omega)
      have step : natDigits b = natDigits (b / 10) ++ [digitChar (b % 10)] := by
        have h2 : natDigits b = natDigitsF b (b / 10) ++ [digitChar (b % 10)] := by
          simp [natDigits, natDigitsF, hb10]
        rw [h2, natDigitsF_stable b (b / 10) hd]
      obtain ⟨c, cs, hcons, hc1, hc2, hc3⟩ := ih (b / 10) hd (by omega)
      refine ⟨c, cs ++ [digitChar (b % 10)], ?_, hc1, hc2, ?_⟩
      · rw [step, hcons]; simp
      · intro x hx
        rcases List.mem_append.1 hx with hx' | hx'
        · exact hc3 x hx'
        · simp at hx'; subst hx'
          exact isDigitChar_digitChar _ (Nat.mod_lt _ (by omega))

theorem runM_itemDec (b : Nat) (acc : List Nat) (rest : List Char) :
    runM iStep (.start, acc) (itemDec b ++ (',' :: rest)) =
      runM iStep (.start, b :: acc) rest := by
  by_cases hb : b = 0
  · subst hb
    have hshape : itemDec 0 = ['0'] := by decide
    have s0 : iStep (.start, acc) '0' = some (.zero, acc) := by simp +decide [iStep]
    have s1 : iStep (.zero, acc) ',' = some (.start, 0 :: acc) := by simp +decide [iStep]
    rw [hshape]
    show runM iStep (.start, acc) ('0' :: ',' :: rest) = _
    rw [runM_cons_some s0, runM_cons_some s1]
  · obtain ⟨c, cs, hcons, hdig, hne0, hcs⟩ := natDigits_head_pos b (by omega)
    obtain ⟨hws, hbr, _⟩ := digit_class hdig
    have s0 : iStep (.start, acc) c = some (.decNum (digitVal c), acc) := by
      simp [iStep, hws, hbr, hne0, hdig]
    have hval : cs.foldl (fun a c => 10 * a + (c.toNat - 48)) (digitVal c) = b := by
      have h1 := digitsVal_natDigits b
      rw [hcons] at h1
      simpa [digitsVal, digitVal] using h1
    have s4 : iStep (.decNum b, acc) ',' = some (.start, b :: acc) := by
      simp +decide [iStep]
    have hshape : itemDec b = c :: cs := hcons
    rw [hshape, List.cons_append, runM_cons_some s0, runM_decRun cs hcs _ acc, hval,
      runM_cons_some s4]

/-! ### Integer lines -/

theorem intercalate_two {α : Type} (sep x y : List α) (zs : List (List α)) :
    List.intercalate sep (x :: y :: zs) =
      x ++ (sep ++ List.intercalate sep (y :: zs)) := by
  simp only [List.intercalate]
  rw [show List.intersperse sep (x :: y :: zs) =
    x :: sep :: List.intersperse sep (y :: zs) from rfl]
  simp

theorem runM_intItems (P : Nat → Prop) (it : Nat → List Char)
    (hit : ∀ b acc rest, P b →
      runM iStep (.start, acc) (it b ++ (',' :: rest)) =
        runM iStep (.start, b :: acc) rest) :
    ∀ (chunk : List Nat), chunk ≠ [] → (∀ b ∈ chunk, P b) →
      ∀ (acc : List Nat) (rest : List Char),
      runM iStep (.start, acc)
          (List.intercalate (", ".toList) (chunk.map it) ++ (',' :: rest)) =
        runM iStep (.start, chunk.reverse ++ acc) rest := by
  intro chunk
  induction chunk with
  | nil => intro h; exact absurd rfl h
  | cons b chunk' ih =>
    intro _ hP acc rest
    match chunk' with
    | [] =>
      have h1 : List.intercalate (", ".toList) ([b].map it) = it b := by
        simp [List.intercalate]
      rw [h1, hit b acc rest (hP b (by simp))]
      simp
    | y :: zs =>
      have h1 : List.intercalate (", ".toList) ((b :: y :: zs).map it) =
          it b ++ ([',', ' '] ++ List.intercalate (", ".toList) ((y :: zs).map it)) := by
        rw [List.map_cons]
        rw [show ((y :: zs).map it) = it y :: (zs.map it) from rfl]
        rw [intercalate_two]
        rfl
      rw [h1]
      simp only [List.append_assoc, List.cons_append, List.nil_append,
        List.singleton_append]
      rw [hit b acc _ (hP b (by simp)),
        runM_cons_some (iStep_start_ws (b :: acc) ' ' (by decide)),
        ih (by simp) (fun x hx => hP x (by simp [hx])) (b :: acc) rest]
      simp

theorem iStep_done (acc : List Nat) (indent : List Char)
    (hind : ∀ c ∈ indent, isWS c = true) :
    runM iStep (.start, acc) (indent ++ ['}']) = some (.done, acc) := by
  rw [runM_ws iStep _ (iStep_start_ws acc) indent hind]
  have s : iStep (.start, acc) '}' = some (.done, acc) := by simp +decide [iStep]
  rw [runM_cons_some s]
  rfl

theorem runM_intLines (P : Nat → Prop) (it : Nat → List Char)
    (hit : ∀ b acc rest, P b →
      runM iStep (.start, acc) (it b ++ (',' :: rest)) =
        runM iStep (.start, b :: acc) rest)
    (fm : Format)
    (hline : ∀ chunk atCap, lineFor fm chunk atCap
      = '\t' :: (List.intercalate (", ".toList) (chunk.map it) ++ [',']))
    (step bufCap : Nat) (hstep : 1 ≤ step) (indent : List Char)
    (hind : ∀ c ∈ indent, isWS c = true) :
    ∀ (f : Nat) (l : List Nat), l.length ≤ f → (∀ b ∈ l, P b) →
      ∀ (pos : Nat) (acc : List Nat) (rest : List Char),
      runM iStep (.start, acc)
          ((((dataLinesF fm step bufCap f pos l).map
            (fun ln => indent ++ (' ' :: (ln ++ ['\n'])))).flatten) ++ rest) =
        runM iStep (.start, l.reverse ++ acc) rest := by
  intro f
  induction f with
  | zero =>
    intro l hl _ pos acc rest
    match l with
    | [] => simp [dataLinesF]
    | x :: l' => simp at hl
  | succ n ih =>
    intro l hl hP pos acc rest
    match l with
    | [] => simp [dataLinesF]
    | x :: l' =>
      have hchunk_ne : (x :: l').take step ≠ [] := by
        match step, hstep with
        | s + 1, _ => simp
      simp only [dataLinesF, List.map_cons, List.flatten_cons, hline,
        List.append_assoc, List.cons_append, List.nil_append, List.singleton_append]
      rw [runM_ws iStep _ (iStep_start_ws acc) indent hind,
        runM_cons_some (iStep_start_ws acc ' ' (by decide)),
        runM_cons_some (iStep_start_ws acc '\t' (by decide)),
        runM_intItems P it hit _ hchunk_ne
          (fun b hb => hP b (List.mem_of_mem_take hb)) acc _,
        runM_cons_some (iStep_start_ws _ '\n' (by decide)),
        ih ((x :: l').drop step) (by have := hl; simp at this ⊢; omega)
          (fun b hb => hP b (List.mem_of_mem_drop hb)) _ _ rest]
      have hacc : ((x :: l').drop step).reverse ++ (((x :: l').take step).reverse ++ acc) =
          (x :: l').reverse ++ acc := by
        rw [← List.append_assoc, ← List.reverse_append, List.take_append_drop]
      rw [hacc]

theorem decodeLiteral_emit_int (P : Nat → Prop) (it : Nat → List Char)
    (hit : ∀ b acc rest, P b →
      runM iStep (.start, acc) (it b ++ (',' :: rest)) =
        runM iStep (.start, b :: acc) rest)
    (fm : Format)
    (hline : ∀ chunk atCap, lineFor fm chunk atCap
      = '\t' :: (List.intercalate (", ".toList) (chunk.map it) ++ [',']))
    (hopen : openCh fm = '{') (hclose : closeCh fm = '}')
    (step bufCap : Nat) (hstep : 1 ≤ step) (indent : List Char)
    (hind : ∀ c ∈ indent, isWS c = true) (buf : List Nat)
    (hbuf : ∀ b ∈ buf, P b) :
    decodeLiteral (emitLiteral fm step indent buf bufCap) = some buf := by
  have hlit : emitLiteral fm step indent buf bufCap
      = '[' :: ']' :: 'b' :: 'y' :: 't' :: 'e' :: '{' ::
        ('\n' :: ((((dataLinesF fm step bufCap buf.length 0 buf).map
            (fun ln => indent ++ (' ' :: (ln ++ ['\n'])))).flatten)
          ++ (indent ++ ['}']))) := by
    simp [emitLiteral, hopen, hclose]
  rw [hlit]
  have hrun : runM iStep (.start, ([] : List Nat)) ('\n' ::
      ((((dataLinesF fm step bufCap buf.length 0 buf).map
        (fun ln => indent ++ (' ' :: (ln ++ ['\n'])))).flatten)
        ++ (indent ++ ['}']))) = some (.done, buf.reverse) := by
    rw [runM_cons_some (iStep_start_ws [] '\n' (by decide)),
      runM_intLines P it hit fm hline step bufCap hstep indent hind
        buf.length buf (le_refl _) hbuf 0 [] _]
    simpa using iStep_done buf.reverse indent hind
  simp +decide [decodeLiteral, hrun]

/-! ### String-literal machine: escape sequences -/

theorem sStep_pre_ws (acc : List Nat) :
    ∀ c, isWS c = true → sStep (.pre, acc) c = some (.pre, acc) := by
  intro c hc; simp [sStep, hc]

theorem sStep_preStr_ws (acc : List Nat) :
    ∀ c, isWS c = true → sStep (.preStr, acc) c = some (.preStr, acc) := by
  intro c hc; simp [sStep, hc]

theorem sStep_preClose_ws (acc : List Nat) :
    ∀ c, isWS c = true → sStep (.preClose, acc) c = some (.preClose, acc) := by
  intro c hc; simp [sStep, hc]

theorem sStep_between_ws (acc : List Nat) :
    ∀ c, isWS c = true → sStep (.between, acc) c = some (.between, acc) := by
  intro c hc; simp [sStep, hc]

theorem runM_escX2 (b : Nat) (hb : b < 256) (acc : List Nat) (rest : List Char) :
    runM sStep (.escX 2 0, acc) (hex2 b ++ rest) =
      runM sStep (.inStr, b :: acc) rest := by
  obtain ⟨hx1, hv1⟩ := hexDigit_facts (b / 16) (by omega)
  obtain ⟨hx2, hv2⟩ := hexDigit_facts (b % 16) (by omega)
  have heq : 16 * (b / 16) + b % 16 = b := by omega
  have s1 : sStep (.escX 2 0, acc) (hexDigit (b / 16)) =
      some (.escX 1 (b / 16), acc) := by
    simp [sStep, hx1, hv1]
  have s2 : sStep (.escX 1 (b / 16), acc) (hexDigit (b % 16)) =
      some (.inStr, b :: acc) := by
    simp [sStep, hx2, hv2, heq]
  show runM sStep (.escX 2 0, acc) (hexDigit (b / 16) :: hexDigit (b % 16) :: rest) = _
  rw [runM_cons_some s1, runM_cons_some s2]

theorem runM_escU4 (r : Nat) (hr : r < 65536) (acc : List Nat) (rest : List Char) :
    runM sStep (.escU 4 0, acc) (hex4 r ++ rest) =
      runM sStep (.inStr, (utf8Encode r).reverse ++ acc) rest := by
  obtain ⟨ha1, hb1⟩ := hexDigit_facts (r / 4096 % 16) (by omega)
  obtain ⟨ha2, hb2⟩ := hexDigit_facts (r / 256 % 16) (by omega)
  obtain ⟨ha3, hb3⟩ := hexDigit_facts (r / 16 % 16) (by omega)
  obtain ⟨ha4, hb4⟩ := hexDigit_facts (r % 16) (by omega)
  have heq : 16 * (16 * (16 * (r / 4096 % 16) + r / 256 % 16) + r / 16 % 16) +
      r % 16 = r := by omega
  have s1 : sStep (.escU 4 0, acc) (hexDigit (r / 4096 % 16)) =
      some (.escU 3 (r / 4096 % 16), acc) := by
    simp [sStep, ha1, hb1]
  have s2 : sStep (.escU 3 (r / 4096 % 16), acc) (hexDigit (r / 256 % 16)) =
      some (.escU 2 (16 * (r / 4096 % 16) + r / 256 % 16), acc) := by
    simp [sStep, ha2, hb2]
  have s3 : sStep (.escU 2 (16 * (r / 4096 % 16) + r / 256 % 16), acc)
      (hexDigit (r / 16 % 16)) =
      some (.escU 1 (16 * (16 * (r / 4096 % 16) + r / 256 % 16) + r / 16 % 16), acc) := by
    simp [sStep, ha3, hb3]
  have s4 : sStep (.escU 1 (16 * (16 * (r / 4096 % 16) + r / 256 % 16) + r / 16 % 16), acc)
      (hexDigit (r % 16)) =
      some (.inStr, (utf8Encode r).reverse ++ acc) := by
    simp [sStep, ha4, hb4, heq]
  show runM sStep (.escU 4 0, acc) (hexDigit (r / 4096 % 16) :: hexDigit (r / 256 % 16) ::
    hexDigit (r / 16 % 16) :: hexDigit (r % 16) :: rest) = _
  rw [runM_cons_some s1, runM_cons_some s2, runM_cons_some s3, runM_cons_some s4]

theorem runM_escUU8 (r : Nat) (hr : r ≤ 1114111) (acc : List Nat) (rest : List Char) :
    runM sStep (.escUU 8 0, acc) (hex8 r ++ rest) =
      runM sStep (.inStr, (utf8Encode r).reverse ++ acc) rest := by
  have hhi : r / 65536 < 17 := by omega
  obtain ⟨ha1, hb1⟩ := hexDigit_facts (r / 65536 / 4096 % 16) (by omega)
  obtain ⟨ha2, hb2⟩ := hexDigit_facts (r / 65536 / 256 % 16) (by omega)
  obtain ⟨ha3, hb3⟩ := hexDigit_facts (r / 65536 / 16 % 16) (by omega)
  obtain ⟨ha4, hb4⟩ := hexDigit_facts (r / 65536 % 16) (by omega)
  obtain ⟨ha5, hb5⟩ := hexDigit_facts (r % 65536 / 4096 % 16) (by omega)
  obtain ⟨ha6, hb6⟩ := hexDigit_facts (r % 65536 / 256 % 16) (by omega)
  obtain ⟨ha7, hb7⟩ := hexDigit_facts (r % 65536 / 16 % 16) (by omega)
  obtain ⟨ha8, hb8⟩ := hexDigit_facts (r % 65536 % 16) (by omega)
  have hv1 : 16 * 0 + r / 65536 / 4096 % 16 = r / 65536 / 4096 % 16 := by omega
  have heq : 16 * (16 * (16 * (16 * (16 * (16 * (16 * (r / 65536 / 4096 % 16) +
      r / 65536 / 256 % 16) + r / 65536 / 16 % 16) + r / 65536 % 16) +
      r % 65536 / 4096 % 16) + r % 65536 / 256 % 16) + r % 65536 / 16 % 16) +
      r % 65536 % 16 = r := by omega
  have s1 : sStep (.escUU 8 0, acc) (hexDigit (r / 65536 / 4096 % 16)) =
      some (.escUU 7 (r / 65536 / 4096 % 16), acc) := by
    simp [sStep, ha1, hb1]
  have s2 : sStep (.escUU 7 (r / 65536 / 4096 % 16), acc)
      (hexDigit (r / 65536 / 256 % 16)) =
      some (.escUU 6 (16 * (r / 65536 / 4096 % 16) + r / 65536 / 256 % 16), acc) := by
    simp [sStep, ha2, hb2]
  have s3 : sStep (.escUU 6 (16 * (r / 65536 / 4096 % 16) + r / 65536 / 256 % 16), acc)
      (hexDigit (r / 65536 / 16 % 16)) =
      some (.escUU 5 (16 * (16 * (r / 65536 / 4096 % 16) + r / 65536 / 256 % 16) +
        r / 65536 / 16 % 16), acc) := by
    simp [sStep, ha3, hb3]
  have s4 : sStep (.escUU 5 (16 * (16 * (r / 65536 / 4096 % 16) + r / 65536 / 256 % 16) +
      r / 65536 / 16 % 16), acc) (hexDigit (r / 65536 % 16)) =
      some (.escUU 4 (16 * (16 * (16 * (r / 65536 / 4096 % 16) + r / 65536 / 256 % 16) +
        r / 65536 / 16 % 16) + r / 65536 % 16), acc) := by
    simp [sStep, ha4, hb4]
  have s5 : sStep (.escUU 4 (16 * (16 * (16 * (r / 65536 / 4096 % 16) +
      r / 65536 / 256 % 16) + r / 65536 / 16 % 16) + r / 65536 % 16), acc)
      (hexDigit (r % 65536 / 4096 % 16)) =
      some (.escUU 3 (16 * (16 * (16 * (16 * (r / 65536 / 4096 % 16) +
        r / 65536 / 256 % 16) + r / 65536 / 16 % 16) + r / 65536 % 16) +
        r % 65536 / 4096 % 16), acc) := by
    simp [sStep, ha5, hb5]
  have s6 : sStep (.escUU 3 (16 * (16 * (16 * (16 * (r / 65536 / 4096 % 16) +
      r / 65536 / 256 % 16) + r / 65536 / 16 % 16) + r / 65536 % 16) +
      r % 65536 / 4096 % 16), acc) (hexDigit (r % 65536 / 256 % 16)) =
      some (.escUU 2 (16 * (16 * (16 * (16 * (16 * (r / 65536 / 4096 % 16) +
        r / 65536 / 256 % 16) + r / 65536 / 16 % 16) + r / 65536 % 16) +
        r % 65536 / 4096 % 16) + r % 65536 / 256 % 16), acc) := by
    simp [sStep, ha6, hb6]
  have s7 : sStep (.escUU 2 (16 * (16 * (16 * (16 * (16 * (r / 65536 / 4096 % 16) +
      r / 65536 / 256 % 16) + r / 65536 / 16 % 16) + r / 65536 % 16) +
      r % 65536 / 4096 % 16) + r % 65536 / 256 % 16), acc)
      (hexDigit (r % 65536 / 16 % 16)) =
      some (.escUU 1 (16 * (16 * (16 * (16 * (16 * (16 * (r / 65536 / 4096 % 16) +
        r / 65536 / 256 % 16) + r / 65536 / 16 % 16) + r / 65536 % 16) +
        r % 65536 / 4096 % 16) + r % 65536 / 256 % 16) + r % 65536 / 16 % 16), acc) := by
    simp [sStep, ha7, hb7]
  have s8 : sStep (.escUU 1 (16 * (16 * (16 * (16 * (16 * (16 * (r / 65536 / 4096 % 16) +
      r / 65536 / 256 % 16) + r / 65536 / 16 % 16) + r / 65536 % 16) +
      r % 65536 / 4096 % 16) + r % 65536 / 256 % 16) + r % 65536 / 16 % 16), acc)
      (hexDigit (r % 65536 % 16)) =
      some (.inStr, (utf8Encode r).reverse ++ acc) := by
    have hle : 16 * (16 * (16 * (16 * (16 * (16 * (16 * (r / 65536 / 4096 % 16) +
        r / 65536 / 256 % 16) + r / 65536 / 16 % 16) + r / 65536 % 16) +
        r % 65536 / 4096 % 16) + r % 65536 / 256 % 16) + r % 65536 / 16 % 16) +
        r % 65536 % 16 ≤ 1114111 := by omega
    simp [sStep, ha8, hb8, heq, hle, hr]
  show runM sStep (.escUU 8 0, acc)
      (hexDigit (r / 65536 / 4096 % 16) :: hexDigit (r / 65536 / 256 % 16) ::
       hexDigit (r / 65536 / 16 % 16) :: hexDigit (r / 65536 % 16) ::
       hexDigit (r % 65536 / 4096 % 16) :: hexDigit (r % 65536 / 256 % 16) ::
       hexDigit (r % 65536 / 16 % 16) :: hexDigit (r % 65536 % 16) :: rest) = _
  rw [runM_cons_some s1, runM_cons_some s2, runM_cons_some s3, runM_cons_some s4,
    runM_cons_some s5, runM_cons_some s6, runM_cons_some s7, runM_cons_some s8]

theorem runM_shexxItems : ∀ (bs : List Nat), (∀ b ∈ bs, b < 256) →
    ∀ (acc : List Nat) (rest : List Char),
      runM sStep (.inStr, acc) ((bs.map shexxItem).flatten ++ rest) =
        runM sStep (.inStr, bs.reverse ++ acc) rest := by
  intro bs
  induction bs with
  | nil => intro _ acc rest; simp
  | cons b bs' ih =>
    intro hb acc rest
    simp only [List.map_cons, List.flatten_cons, shexxItem, List.append_assoc,
      List.cons_append]
    have s1 : sStep (.inStr, acc) '\\' = some (.esc, acc) := by simp +decide [sStep]
    have s2 : sStep (.esc, acc) 'x' = some (.escX 2 0, acc) := by simp +decide [sStep]
    rw [runM_cons_some s1, runM_cons_some s2, runM_escX2 b (hb b (by simp)) acc _,
      ih (fun x hx => hb x (by simp [hx])) (b :: acc) rest]
    simp

/-- Re-encoding a decoded 2-byte sequence. -/
theorem utf8Encode_two (b0 b1 : Nat) (h0 : 194 ≤ b0 ∧ b0 ≤ 223)
    (h1 : 128 ≤ b1 ∧ b1 ≤ 191) :
    utf8Encode ((b0 - 192) * 64 + (b1 - 128)) = [b0, b1] ∧
      128 ≤ (b0 - 192) * 64 + (b1 - 128) ∧ (b0 - 192) * 64 + (b1 - 128) < 2048 := by
  have c1 : ¬ (b0 - 192) * 64 + (b1 - 128) < 128 := by omega
  have c2 : (b0 - 192) * 64 + (b1 - 128) < 2048 := by omega
  have e1 : 192 + ((b0 - 192) * 64 + (b1 - 128)) / 64 = b0 := by omega
  have e2 : 128 + ((b0 - 192) * 64 + (b1 - 128)) % 64 = b1 := by omega
  refine ⟨?_, by omega, c2⟩
  simp [utf8Encode, c1, c2, e1, e2]

/-- Re-encoding a decoded 3-byte sequence; the leader/continuation ranges
exclude overlong and surrogate forms. -/
theorem utf8Encode_three (b0 b1 b2 : Nat) (h0 : 224 ≤ b0 ∧ b0 ≤ 239)
    (h1 : 128 ≤ b1 ∧ b1 ≤ 191) (h1a : b0 = 224 → 160 ≤ b1)
    (h1b : b0 = 237 → b1 ≤ 159) (h2 : 128 ≤ b2 ∧ b2 ≤ 191) :
    utf8Encode ((b0 - 224) * 4096 + (b1 - 128) * 64 + (b2 - 128)) = [b0, b1, b2] ∧
      2048 ≤ (b0 - 224) * 4096 + (b1 - 128) * 64 + (b2 - 128) ∧
      (b0 - 224) * 4096 + (b1 - 128) * 64 + (b2 - 128) < 65536 ∧
      ¬(55296 ≤ (b0 - 224) * 4096 + (b1 - 128) * 64 + (b2 - 128) ∧
        (b0 - 224) * 4096 + (b1 - 128) * 64 + (b2 - 128) < 57344) := by
  have hlo : 2048 ≤ (b0 - 224) * 4096 + (b1 - 128) * 64 + (b2 - 128) := by omega
  have c1 : ¬ (b0 - 224) * 4096 + (b1 - 128) * 64 + (b2 - 128) < 128 := by omega
  have c2 : ¬ (b0 - 224) * 4096 + (b1 - 128) * 64 + (b2 - 128) < 2048 := by omega
  have c3 : ¬ (55296 ≤ (b0 - 224) * 4096 + (b1 - 128) * 64 + (b2 - 128) ∧
      (b0 - 224) * 4096 + (b1 - 128) * 64 + (b2 - 128) < 57344) := by omega
  have c4 : (b0 - 224) * 4096 + (b1 - 128) * 64 + (b2 - 128) < 65536 := by omega
  have e1 : 224 + ((b0 - 224) * 4096 + (b1 - 128) * 64 + (b2 - 128)) / 4096 = b0 := by
    omega
  have e2 : 128 + ((b0 - 224) * 4096 + (b1 - 128) * 64 + (b2 - 128)) / 64 % 64 = b1 := by
    omega
  have e3 : 128 + ((b0 - 224) * 4096 + (b1 - 128) * 64 + (b2 - 128)) % 64 = b2 := by
    omega
  refine ⟨?_, hlo, c4, c3⟩
  simp [utf8Encode, c1, c2, c3, c4, e1, e2, e3]

/-- Re-encoding a decoded 4-byte sequence. -/
theorem utf8Encode_four (b0 b1 b2 b3 : Nat) (h0 : 240 ≤ b0 ∧ b0 ≤ 244)
    (h1 : 128 ≤ b1 ∧ b1 ≤ 191) (h1a : b0 = 240 → 144 ≤ b1)
    (h1b : b0 = 244 → b1 ≤ 143) (h2 : 128 ≤ b2 ∧ b2 ≤ 191)
    (h3 : 128 ≤ b3 ∧ b3 ≤ 191) :
    utf8Encode ((b0 - 240) * 262144 + (b1 - 128) * 4096 + (b2 - 128) * 64 + (b3 - 128))
        = [b0, b1, b2, b3] ∧
      65536 ≤ (b0 - 240) * 262144 + (b1 - 128) * 4096 + (b2 - 128) * 64 + (b3 - 128) ∧
      (b0 - 240) * 262144 + (b1 - 128) * 4096 + (b2 - 128) * 64 + (b3 - 128)
        ≤ 1114111 := by
  have hlo : 65536 ≤ (b0 - 240) * 262144 + (b1 - 128) * 4096 + (b2 - 128) * 64 +
      (b3 - 128) := by omega
  have hhi : (b0 - 240) * 262144 + (b1 - 128) * 4096 + (b2 - 128) * 64 + (b3 - 128)
      ≤ 1114111 := by omega
  have c1 : ¬ (b0 - 240) * 262144 + (b1 - 128) * 4096 + (b2 - 128) * 64 +
      (b3 - 128) < 128 := by omega
  have c2 : ¬ (b0 - 240) * 262144 + (b1 - 128) * 4096 + (b2 - 128) * 64 +
      (b3 - 128) < 2048 := by omega
  have c3 : ¬ (55296 ≤ (b0 - 240) * 262144 + (b1 - 128) * 4096 + (b2 - 128) * 64 +
      (b3 - 128) ∧ (b0 - 240) * 262144 + (b1 - 128) * 4096 + (b2 - 128) * 64 +
      (b3 - 128) < 57344) := by omega
  have c4 : ¬ (b0 - 240) * 262144 + (b1 - 128) * 4096 + (b2 - 128) * 64 +
      (b3 - 128) < 65536 := by omega
  have c5 : (b0 - 240) * 262144 + (b1 - 128) * 4096 + (b2 - 128) * 64 +
      (b3 - 128) < 1114112 := by omega
  have e1 : 240 + ((b0 - 240) * 262144 + (b1 - 128) * 4096 + (b2 - 128) * 64 +
      (b3 - 128)) / 262144 = b0 := by omega
  have e2 : 128 + ((b0 - 240) * 262144 + (b1 - 128) * 4096 + (b2 - 128) * 64 +
      (b3 - 128)) / 4096 % 64 = b1 := by omega
  have e3 : 128 + ((b0 - 240) * 262144 + (b1 - 128) * 4096 + (b2 - 128) * 64 +
      (b3 - 128)) / 64 % 64 = b2 := by omega
  have e4 : 128 + ((b0 - 240) * 262144 + (b1 - 128) * 4096 + (b2 - 128) * 64 +
      (b3 - 128)) % 64 = b3 := by omega
  refine ⟨?_, hlo, hhi⟩
  simp [utf8Encode, c1, c2, c3, c4, c5, e1, e2, e3, e4]

theorem utf8SpecClaim_one (b0 : Nat) (tl : List Nat) (hb : b0 < 128) :
    Utf8SpecClaim 1 b0 (b0 :: tl) := by
  refine ⟨by omega, by simp, ?_, by omega, by omega, by omega⟩
  simp [utf8Encode, hb]

theorem utf8SpecClaim_two (b0 b1 : Nat) (tl : List Nat)
    (h0 : 194 ≤ b0 ∧ b0 ≤ 223) (h1 : 128 ≤ b1 ∧ b1 ≤ 191) :
    Utf8SpecClaim 2 ((b0 - 192) * 64 + (b1 - 128)) (b0 :: b1 :: tl) := by
  obtain ⟨henc, hlo, hhi⟩ := utf8Encode_two b0 b1 h0 h1
  refine ⟨by omega, by simp, ?_, by omega, by omega, by omega⟩
  rw [henc]
  simp

theorem utf8SpecClaim_three (b0 b1 b2 : Nat) (tl : List Nat)
    (h0 : 224 ≤ b0 ∧ b0 ≤ 239) (h1 : 128 ≤ b1 ∧ b1 ≤ 191)
    (h1a : b0 = 224 → 160 ≤ b1) (h1b : b0 = 237 → b1 ≤ 159)
    (h2 : 128 ≤ b2 ∧ b2 ≤ 191) :
    Utf8SpecClaim 3 ((b0 - 224) * 4096 + (b1 - 128) * 64 + (b2 - 128))
      (b0 :: b1 :: b2 :: tl) := by
  obtain ⟨henc, hlo, hhi, hsur⟩ := utf8Encode_three b0 b1 b2 h0 h1 h1a h1b h2
  refine ⟨by omega, by simp, ?_, hsur, by omega, by omega⟩
  rw [henc]
  simp

theorem utf8SpecClaim_four (b0 b1 b2 b3 : Nat) (tl : List Nat)
    (h0 : 240 ≤ b0 ∧ b0 ≤ 244) (h1 : 128 ≤ b1 ∧ b1 ≤ 191)
    (h1a : b0 = 240 → 144 ≤ b1) (h1b : b0 = 244 → b1 ≤ 143)
    (h2 : 128 ≤ b2 ∧ b2 ≤ 191) (h3 : 128 ≤ b3 ∧ b3 ≤ 191) :
    Utf8SpecClaim 4 ((b0 - 240) * 262144 + (b1 - 128) * 4096 + (b2 - 128) * 64 +
      (b3 - 128)) (b0 :: b1 :: b2 :: b3 :: tl) := by
  obtain ⟨henc, hlo, hhi⟩ := utf8Encode_four b0 b1 b2 b3 h0 h1 h1a h1b h2 h3
  refine ⟨by omega, by simp, ?_, by omega, hhi, by omega⟩
  rw [henc]
  simp

set_option maxRecDepth 8000 in
set_option maxHeartbeats 2000000 in
/-- Decoded runes re-encode to exactly the bytes consumed: the validity
checks of `utf8Decode1` exclude overlong, surrogate and out-of-range
forms, so `utf8Encode` is a left inverse on the consumed prefix. -/
theorem utf8Decode1_spec : ∀ {l : List Nat} {r n : Nat},
    utf8Decode1 l = some (r, n) → Utf8SpecClaim n r l := by
  intro l r n h
  rcases l with _ | ⟨b0, _ | ⟨b1, _ | ⟨b2, _ | ⟨b3, tail4⟩⟩⟩⟩
  all_goals
    simp only [utf8Decode1, List.getD_cons_zero, List.getD_cons_succ,
      List.getD_nil] at h
  all_goals try split_ifs at h
  · exact Option.noConfusion h
  all_goals
    first
    | exact Option.noConfusion h
    | (exfalso; omega)
    | (injection h with h'
       injection h' with hr hn
       subst hr; subst hn
       first
       | exact utf8SpecClaim_one _ _ (by omega)
       | exact utf8SpecClaim_two _ _ _ (by omega) (by omega)
       | exact utf8SpecClaim_three _ _ _ _ (by omega) (by omega) (by omega)
           (by omega) (by omega)
       | exact utf8SpecClaim_four _ _ _ _ _ (by omega) (by omega) (by omega)
           (by omega) (by omega) (by omega))

theorem charOfNat_small : ∀ m : Nat, m < 128 → (Char.ofNat m).toNat = m := by decide

/-- Running the machine over one escaped rune of `QuoteToASCII` pushes the
UTF-8 bytes of that rune. -/
theorem runM_escRune (r : Nat) (hr : r ≤ 1114111) (acc : List Nat) (rest : List Char) :
    runM sStep (.inStr, acc) (escRune r ++ rest) =
      runM sStep (.inStr, (utf8Encode r).reverse ++ acc) rest := by
  have hesc : sStep (.inStr, acc) '\\' = some (.esc, acc) := by simp +decide [sStep]
  by_cases h34 : r = 34
  · subst h34
    have s2 : sStep (.esc, acc) '"' = some (.inStr, 34 :: acc) := by simp +decide [sStep]
    rw [show escRune 34 = ['\\', '"'] from rfl]
    simp only [List.cons_append, List.nil_append]
    rw [runM_cons_some hesc, runM_cons_some s2]
    simp [utf8Encode]
  by_cases h92 : r = 92
  · subst h92
    have s2 : sStep (.esc, acc) '\\' = some (.inStr, 92 :: acc) := by simp +decide [sStep]
    rw [show escRune 92 = ['\\', '\\'] from rfl]
    simp only [List.cons_append, List.nil_append]
    rw [runM_cons_some hesc, runM_cons_some s2]
    simp [utf8Encode]
  by_cases hpr : 32 ≤ r ∧ r ≤ 126
  · have he : escRune r = [Char.ofNat r] := by
      unfold escRune
      rw [if_neg h34, if_neg h92, if_pos hpr]
    have hcn : (Char.ofNat r).toNat = r := charOfNat_small r (by omega)
    have hq : Char.ofNat r ≠ '"' := char_ne_of_toNat (by
      rw [hcn, show ('"').toNat = 34 from by decide]; omega)
    have hbsl : Char.ofNat r ≠ '\\' := char_ne_of_toNat (by
      rw [hcn, show ('\\').toNat = 92 from by decide]; omega)
    have hnl : Char.ofNat r ≠ '\n' := char_ne_of_toNat (by
      rw [hcn, show ('\n').toNat = 10 from by decide]; omega)
    have s1 : sStep (.inStr, acc) (Char.ofNat r) =
        some (.inStr, (utf8Encode r).reverse ++ acc) := by
      simp [sStep, hq, hbsl, hnl, hcn]
    rw [he]
    simp only [List.cons_append, List.nil_append]
    rw [runM_cons_some s1]
  by_cases h7 : r = 7
  · subst h7
    have s2 : sStep (.esc, acc) 'a' = some (.inStr, 7 :: acc) := by simp +decide [sStep]
    rw [show escRune 7 = ['\\', 'a'] from rfl]
    simp only [List.cons_append, List.nil_append]
    rw [runM_cons_some hesc, runM_cons_some s2]
    simp [utf8Encode]
  by_cases h8 : r = 8
  · subst h8
    have s2 : sStep (.esc, acc) 'b' = some (.inStr, 8 :: acc) := by simp +decide [sStep]
    rw [show escRune 8 = ['\\', 'b'] from rfl]
    simp only [List.cons_append, List.nil_append]
    rw [runM_cons_some hesc, runM_cons_some s2]
    simp [utf8Encode]
  by_cases h12 : r = 12
  · subst h12
    have s2 : sStep (.esc, acc) 'f' = some (.inStr, 12 :: acc) := by simp +decide [sStep]
    rw [show escRune 12 = ['\\', 'f'] from rfl]
    simp only [List.cons_append, List.nil_append]
    rw [runM_cons_some hesc, runM_cons_some s2]
    simp [utf8Encode]
  by_cases h10 : r = 10
  · subst h10
    have s2 : sStep (.esc, acc) 'n' = some (.inStr, 10 :: acc) := by simp +decide [sStep]
    rw [show escRune 10 = ['\\', 'n'] from rfl]
    simp only [List.cons_append, List.nil_append]
    rw [runM_cons_some hesc, runM_cons_some s2]
    simp [utf8Encode]
  by_cases h13 : r = 13
  · subst h13
    have s2 : sStep (.esc, acc) 'r' = some (.inStr, 13 :: acc) := by simp +decide [sStep]
    rw [show escRune 13 = ['\\', 'r'] from rfl]
    simp only [List.cons_append, List.nil_append]
    rw [runM_cons_some hesc, runM_cons_some s2]
    simp [utf8Encode]
  by_cases h9 : r = 9
  · subst h9
    have s2 : sStep (.esc, acc) 't' = some (.inStr, 9 :: acc) := by simp +decide [sStep]
    rw [show escRune 9 = ['\\', 't'] from rfl]
    simp only [List.cons_append, List.nil_append]
    rw [runM_cons_some hesc, runM_cons_some s2]
    simp [utf8Encode]
  by_cases h11 : r = 11
  · subst h11
    have s2 : sStep (.esc, acc) 'v' = some (.inStr, 11 :: acc) := by simp +decide [sStep]
    rw [show escRune 11 = ['\\', 'v'] from rfl]
    simp only [List.cons_append, List.nil_append]
    rw [runM_cons_some hesc, runM_cons_some s2]
    simp [utf8Encode]
  by_cases hx : r < 32 ∨ r = 127
  · have he : escRune r = '\\' :: 'x' :: hex2 r := by
      unfold escRune
      rw [if_neg h34, if_neg h92, if_neg hpr, if_neg h7, if_neg h8, if_neg h12,
        if_neg h10, if_neg h13, if_neg h9, if_neg h11, if_pos hx]
    have s2 : sStep (.esc, acc) 'x' = some (.escX 2 0, acc) := by simp +decide [sStep]
    have henc : utf8Encode r = [r] := by
      unfold utf8Encode
      rw [if_pos (show r < 128 by omega)]
    rw [he]
    simp only [List.cons_append]
    rw [runM_cons_some hesc, runM_cons_some s2, runM_escX2 r (by omega) acc rest, henc]
    simp
  by_cases hu : r < 65536
  · have he : escRune r = '\\' :: 'u' :: hex4 r := by
      unfold escRune
      rw [if_neg h34, if_neg h92, if_neg hpr, if_neg h7, if_neg h8, if_neg h12,
        if_neg h10, if_neg h13, if_neg h9, if_neg h11, if_neg hx, if_pos hu]
    have s2 : sStep (.esc, acc) 'u' = some (.escU 4 0, acc) := by simp +decide [sStep]
    rw [he]
    simp only [List.cons_append]
    rw [runM_cons_some hesc, runM_cons_some s2, runM_escU4 r hu acc rest]
  · have he : escRune r = '\\' :: 'U' :: hex8 r := by
      unfold escRune
      rw [if_neg h34, if_neg h92, if_neg hpr, if_neg h7, if_neg h8, if_neg h12,
        if_neg h10, if_neg h13, if_neg h9, if_neg h11, if_neg hx, if_neg hu]
    have s2 : sStep (.esc, acc) 'U' = some (.escUU 8 0, acc) := by simp +decide [sStep]
    rw [he]
    simp only [List.cons_append]
    rw [runM_cons_some hesc, runM_cons_some s2, runM_escUU8 r hr acc rest]

/-- Running the machine over the body of `QuoteToASCII` pushes exactly the
quoted bytes, reversed. -/
theorem runM_quoteBody : ∀ (f : Nat) (bs : List Nat), bs.length ≤ f →
    (∀ b ∈ bs, b < 256) → ∀ (acc : List Nat) (rest : List Char),
    runM sStep (.inStr, acc) (quoteBodyF f bs ++ rest) =
      runM sStep (.inStr, bs.reverse ++ acc) rest := by
  intro f
  induction f with
  | zero =>
    intro bs hlen _ acc rest
    have hnil : bs = [] := by
      match bs with
      | [] => rfl
      | x :: l => simp at hlen
    subst hnil
    simp [quoteBodyF]
  | succ f ih =>
    intro bs hlen hb acc rest
    match bs with
    | [] => simp [quoteBodyF]
    | b0 :: tl =>
      have hesc : sStep (.inStr, acc) '\\' = some (.esc, acc) := by simp +decide [sStep]
      cases hdec : utf8Decode1 (b0 :: tl) with
      | none =>
        have he : quoteBodyF (f + 1) (b0 :: tl) =
            '\\' :: 'x' :: (hex2 b0 ++ quoteBodyF f tl) := by
          show (match utf8Decode1 (b0 :: tl) with
            | none => '\\' :: 'x' :: hex2 b0 ++ quoteBodyF f tl
            | some (r, n) => escRune r ++ quoteBodyF f ((b0 :: tl).drop n)) = _
          rw [hdec]
          simp
        have s2 : sStep (.esc, acc) 'x' = some (.escX 2 0, acc) := by simp +decide [sStep]
        rw [he]
        simp only [List.cons_append, List.append_assoc]
        rw [runM_cons_some hesc, runM_cons_some s2,
          runM_escX2 b0 (hb b0 (by simp)) acc _,
          ih tl (by simp at hlen ⊢; omega) (fun b hx => hb b (by simp [hx]))
            (b0 :: acc) rest]
        simp
      | some p =>
        obtain ⟨r, n⟩ := p
        obtain ⟨hn1, hnle, henc, hsur, hmax, hiff⟩ := utf8Decode1_spec hdec
        have he : quoteBodyF (f + 1) (b0 :: tl) =
            escRune r ++ quoteBodyF f ((b0 :: tl).drop n) := by
          show (match utf8Decode1 (b0 :: tl) with
            | none => '\\' :: 'x' :: hex2 b0 ++ quoteBodyF f tl
            | some (r, n) => escRune r ++ quoteBodyF f ((b0 :: tl).drop n)) = _
          rw [hdec]
        have hdl : ((b0 :: tl).drop n).length ≤ f := by
          have h1 : (b0 :: tl).length = tl.length + 1 := by simp
          rw [List.length_drop]
          simp at hlen h1 hnle ⊢
          omega
        rw [he, List.append_assoc, runM_escRune r hmax acc _,
          ih ((b0 :: tl).drop n) hdl
            (fun b hx => hb b (List.mem_of_mem_drop hx))
            ((utf8Encode r).reverse ++ acc) rest, henc,
          ← List.append_assoc, ← List.reverse_append, List.take_append_drop]

theorem dataLinesF_nil (fm : Format) (step bufCap : Nat) :
    ∀ f pos, dataLinesF fm step bufCap f pos [] = [] := by
  intro f pos
  cases f <;> simp [dataLinesF]

/-- Running the string machine over the emitted data lines of an
exactly-sized buffer consumes every line and ends just after the final
comma. -/
theorem runM_strLines (P : Nat → Prop) (body : List Nat → List Char)
    (hbody : ∀ chunk acc rest, (∀ b ∈ chunk, P b) →
      runM sStep (.inStr, acc) (body chunk ++ rest) =
        runM sStep (.inStr, chunk.reverse ++ acc) rest)
    (fm : Format)
    (hline : ∀ chunk atCap, lineFor fm chunk atCap =
      '\t' :: '"' :: (body chunk ++ '"' :: [if atCap then ',' else '+']))
    (step bufCap : Nat) (hstep : 1 ≤ step) (indent : List Char)
    (hind : ∀ c ∈ indent, isWS c = true) :
    ∀ (f : Nat) (l : List Nat), l.length ≤ f → l ≠ [] → (∀ b ∈ l, P b) →
      ∀ (pos : Nat), pos + l.length = bufCap →
      ∀ (st : SMode),
        (∀ acc c, isWS c = true → sStep (st, acc) c = some (st, acc)) →
        (∀ acc, sStep (st, acc) '"' = some (.inStr, acc)) →
      ∀ (acc : List Nat) (rest : List Char),
      runM sStep (st, acc)
          ((((dataLinesF fm step bufCap f pos l).map
            (fun ln => indent ++ (' ' :: (ln ++ ['\n'])))).flatten) ++ rest) =
        runM sStep (.preClose, l.reverse ++ acc) rest := by
  intro f
  induction f with
  | zero =>
    intro l hl hne _ pos _ st _ _ acc rest
    match l with
    | [] => exact absurd rfl hne
    | x :: l' => simp at hl
  | succ f ih =>
    intro l hl hne hP pos hpos st hws hq acc rest
    match l with
    | x :: l' =>
      cases hrst : (x :: l').drop step with
      | nil =>
        have hle : (x :: l').length ≤ step := by
          have := congrArg List.length hrst
          simp only [List.length_drop, List.length_nil] at this
          omega
        have hcap : (pos + ((x :: l').take step).length == bufCap) = true := by
          rw [List.take_of_length_le hle]
          simp only [beq_iff_eq]
          omega
        simp only [dataLinesF, List.map_cons, List.flatten_cons, hline, hcap,
          List.append_assoc, List.cons_append, List.nil_append,
          List.singleton_append, if_true, hrst, dataLinesF_nil, List.map_nil,
          List.flatten_nil]
        rw [List.take_of_length_le hle]
        rw [runM_ws sStep (st, acc) (hws acc) indent hind,
          runM_cons_some (hws acc ' ' (by decide)),
          runM_cons_some (hws acc '\t' (by decide)),
          runM_cons_some (hq acc),
          hbody (x :: l') acc _ hP,
          runM_cons_some (show sStep (.inStr, (x :: l').reverse ++ acc) '"' =
            some (.between, (x :: l').reverse ++ acc) from by simp +decide [sStep]),
          runM_cons_some (show sStep (.between, (x :: l').reverse ++ acc) ',' =
            some (.preClose, (x :: l').reverse ++ acc) from by simp +decide [sStep]),
          runM_cons_some (sStep_preClose_ws _ '\n' (by decide))]
      | cons y ys =>
        have hlen2 := congrArg List.length hrst
        simp only [List.length_drop, List.length_cons] at hlen2
        have hlt : step < (x :: l').length := by
          simp only [List.length_cons]
          omega
        have hcapf : (pos + ((x :: l').take step).length == bufCap) = false := by
          simp only [List.length_take, beq_eq_false_iff_ne]
          omega
        simp only [dataLinesF, List.map_cons, List.flatten_cons, hline, hcapf,
          List.append_assoc, List.cons_append, List.nil_append,
          List.singleton_append, Bool.false_eq_true, if_false]
        rw [runM_ws sStep (st, acc) (hws acc) indent hind,
          runM_cons_some (hws acc ' ' (by decide)),
          runM_cons_some (hws acc '\t' (by decide)),
          runM_cons_some (hq acc),
          hbody ((x :: l').take step) acc _
            (fun b hbm => hP b (List.mem_of_mem_take hbm)),
          runM_cons_some (show sStep (.inStr, ((x :: l').take step).reverse ++ acc) '"' =
            some (.between, ((x :: l').take step).reverse ++ acc) from by
              simp +decide [sStep]),
          runM_cons_some (show sStep (.between, ((x :: l').take step).reverse ++ acc) '+' =
            some (.preStr, ((x :: l').take step).reverse ++ acc) from by
              simp +decide [sStep]),
          runM_cons_some (sStep_preStr_ws _ '\n' (by decide)),
          ih ((x :: l').drop step)
            (by simp only [List.length_drop]; simp at hl ⊢; omega)
            (by rw [hrst]; simp)
            (fun b hbm => hP b (List.mem_of_mem_drop hbm))
            (pos + ((x :: l').take step).length)
            (by simp only [List.length_take, List.length_drop]; omega)
            .preStr (fun a c h => sStep_preStr_ws a c h)
            (fun a => by simp +decide [sStep])
            (((x :: l').take step).reverse ++ acc) rest]
        have hacc : ((x :: l').drop step).reverse ++ (((x :: l').take step).reverse ++ acc) =
            (x :: l').reverse ++ acc := by
          rw [← List.append_assoc, ← List.reverse_append, List.take_append_drop]
        rw [hacc]

/-- Decoding the emitted paren-form literal of a nonempty, exactly-sized
buffer by Go's string-literal rules returns the original bytes. -/
theorem decodeLiteral_emit_str (P : Nat → Prop) (body : List Nat → List Char)
    (hbody : ∀ chunk acc rest, (∀ b ∈ chunk, P b) →
      runM sStep (.inStr, acc) (body chunk ++ rest) =
        runM sStep (.inStr, chunk.reverse ++ acc) rest)
    (fm : Format)
    (hline : ∀ chunk atCap, lineFor fm chunk atCap =
      '\t' :: '"' :: (body chunk ++ '"' :: [if atCap then ',' else '+']))
    (hopen : openCh fm = '(') (hclose : closeCh fm = ')')
    (step : Nat) (hstep : 1 ≤ step) (indent : List Char)
    (hind : ∀ c ∈ indent, isWS c = true) (buf : List Nat)
    (hbuf : ∀ b ∈ buf, P b) (hne : buf ≠ []) :
    decodeLiteral (emitLiteral fm step indent buf buf.length) = some buf := by
  have hlit : emitLiteral fm step indent buf buf.length
      = '[' :: ']' :: 'b' :: 'y' :: 't' :: 'e' :: '(' ::
        ('\n' :: ((((dataLinesF fm step buf.length buf.length 0 buf).map
            (fun ln => indent ++ (' ' :: (ln ++ ['\n'])))).flatten)
          ++ (indent ++ [')']))) := by
    simp [emitLiteral, hopen, hclose]
  rw [hlit]
  have hrun : runM sStep (.pre, ([] : List Nat))
      ('\n' :: ((((dataLinesF fm step buf.length buf.length 0 buf).map
          (fun ln => indent ++ (' ' :: (ln ++ ['\n'])))).flatten)
        ++ (indent ++ [')']))) = some (.sdone, buf.reverse) := by
    rw [runM_cons_some (sStep_pre_ws [] '\n' (by decide)),
      runM_strLines P body hbody fm hline step buf.length hstep indent hind
        buf.length buf (le_refl _) hne hbuf 0 (by simp) .pre
        (fun a c h => sStep_pre_ws a c h)
        (fun a => by simp +decide [sStep]) [] _,
      runM_ws sStep _ (sStep_preClose_ws (buf.reverse ++ [])) indent hind,
      runM_cons_some (show sStep (.preClose, buf.reverse ++ []) ')' =
        some (.sdone, buf.reverse ++ []) from by simp +decide [sStep])]
    simp [runM]
  simp +decide [decodeLiteral, hrun]

/-- C8 (counterexample).  The round-trip claim fails for the two string
formats: the tool reads its input with `ioutil.ReadFile`, whose buffer has
`cap > len`, so every line's `len(chunk) == cap(chunk)` test is false and
each line ends in `+`, including the last — the emitted text ends
`..." +` followed by `)` and is not decodable; likewise the empty input
emits `[]byte()`, which is not a valid conversion of string literals. -/
theorem claim8_counterexample :
    decodeLiteral (emitLiteral .shexx 16 [] [0] 2) = none ∧
    decodeLiteral (emitLiteral .shex 16 [] [0] 2) = none ∧
    decodeLiteral (emitLiteral .shexx 16 [] [] 0) = none ∧
    decodeLiteral (emitLiteral .shex 16 [] [] 0) = none := by decide

/-- C8.  Decoding the generator's emitted literal by Go's own literal
rules reproduces the input bytes: unconditionally for the three integer
formats (`hexx`, `hex`, `dec`), and for the two string formats (`shexx`,
`shex`) when the buffer is nonempty and exactly sized (`len == cap`, so
the final delimiter is a comma). -/
theorem claim8_theorem (step : Nat) (hstep : 1 ≤ step) (indent : List Char)
    (hind : ∀ c ∈ indent, isWS c = true) (buf : List Nat) (bufCap : Nat)
    (hbuf : ∀ b ∈ buf, b < 256) :
    (decodeLiteral (emitLiteral .hexx step indent buf bufCap) = some buf ∧
     decodeLiteral (emitLiteral .hex step indent buf bufCap) = some buf ∧
     decodeLiteral (emitLiteral .dec step indent buf bufCap) = some buf) ∧
    (buf ≠ [] →
     decodeLiteral (emitLiteral .shexx step indent buf buf.length) = some buf ∧
     decodeLiteral (emitLiteral .shex step indent buf buf.length) = some buf) := by
  refine ⟨⟨?_, ?_, ?_⟩, fun hne => ⟨?_, ?_⟩⟩
  · exact decodeLiteral_emit_int (fun b => b < 256) itemHexx
      (fun b acc rest hb => runM_itemHexx b hb acc rest) .hexx
      (fun chunk atCap => rfl) rfl rfl step bufCap hstep indent hind buf hbuf
  · exact decodeLiteral_emit_int (fun b => b < 256) itemHex
      (fun b acc rest hb => runM_itemHex b hb acc rest) .hex
      (fun chunk atCap => rfl) rfl rfl step bufCap hstep indent hind buf hbuf
  · exact decodeLiteral_emit_int (fun b => b < 256) itemDec
      (fun b acc rest _ => runM_itemDec b acc rest) .dec
      (fun chunk atCap => rfl) rfl rfl step bufCap hstep indent hind buf hbuf
  · exact decodeLiteral_emit_str (fun b => b < 256)
      (fun chunk => (chunk.map shexxItem).flatten)
      (fun chunk acc rest h => runM_shexxItems chunk h acc rest) .shexx
      (fun chunk atCap => rfl) rfl rfl step hstep indent hind buf hbuf hne
  · exact decodeLiteral_emit_str (fun b => b < 256)
      (fun chunk => quoteBodyF chunk.length chunk)
      (fun chunk acc rest h => runM_quoteBody chunk.length chunk (le_refl _) h acc rest)
      .shex (fun chunk atCap => by simp [lineFor, quotePlusQ]) rfl rfl
      step hstep indent hind buf hbuf hne

theorem claim8_theorem_witness :
    (decodeLiteral (emitLiteral .hexx 2 ['\t'] [0, 107, 200] 3) = some [0, 107, 200] ∧
     decodeLiteral (emitLiteral .hex 2 ['\t'] [0, 107, 200] 3) = some [0, 107, 200] ∧
     decodeLiteral (emitLiteral .dec 2 ['\t'] [0, 107, 200] 3) = some [0, 107, 200]) ∧
    (decodeLiteral (emitLiteral .shexx 2 ['\t'] [0, 107, 200] 3) = some [0, 107, 200] ∧
     decodeLiteral (emitLiteral .shex 2 ['\t'] [0, 107, 200] 3) = some [0, 107, 200]) :=
  ⟨(claim8_theorem 2 (by decide) ['\t'] (by decide) [0, 107, 200] 3 (by decide)).1,
   (claim8_theorem 2 (by decide) ['\t'] (by decide) [0, 107, 200] 3 (by decide)).2
     (by decide)⟩

end GDownload
